import Mathlib

/-!
Verification of the schema-reconciliation and join pipeline of
`run_app.py` (NexGen GreenRoute Tracker).

The tabular data model is embedded shallowly:

* a cell is a finite numeric value (`Cell.num`, a rational standing for a
  finite float), a string (`Cell.str`), or missing (`Cell.na`, standing for
  pandas NaN / absent);
* a row is an association list from column names to cells;
* a relation (DataFrame) is a list of column names plus a list of rows.

IEEE infinities never arise inside this value domain: the one place the
source can produce them from in-domain data, the `carbon_cost_per_value`
division, immediately replaces them with NaN (modelled by `Cell.na`), and
that replacement is folded into `cellDiv` below.  The standalone value
coercer `pd.to_numeric`, however, is modelled with its full codomain
(`NumVal`, including infinities), because it is applied to arbitrary
strings.

Every definition mirrors a specific function or line range of
`run_app.py`; the comments cite the lines.
-/

namespace GreenRoute

/-- A single cell of a tabular relation. -/
inductive Cell : Type where
  | num (q : ℚ)
  | str (s : String)
  | na
deriving DecidableEq

/-- A row: an ordered association of column names to cells. -/
abbrev Row := List (String × Cell)

/-- A relation (DataFrame): column names plus rows. -/
structure Relation : Type where
  cols : List String
  rows : List Row
deriving DecidableEq

/-- The cell a row holds for a column name (NaN if the row lacks it). -/
def rowCell (r : Row) (n : String) : Cell := (r.lookup n).getD Cell.na

/-- The cells of one column, in row order. -/
def getColCells (R : Relation) (n : String) : List Cell :=
  R.rows.map (fun r => rowCell r n)

/-- Well-formedness: every row lists exactly the declared columns, in order. -/
def WFRel (R : Relation) : Prop :=
  ∀ r ∈ R.rows, r.map Prod.fst = R.cols

instance (R : Relation) : Decidable (WFRel R) := by
  unfold WFRel; infer_instance

/-! ### Kernel-computable rational arithmetic

Mathlib marks the `Rat` field operations irreducible, which stops
`decide` from evaluating them on concrete inputs.  The model therefore
uses its own definitions through `mkRat` (which does reduce) and proves
them equal to the standard operations, so that theorems can still be
stated with `+`, `*` and `/`. -/

/-- An integer as a rational, by `mkRat`. -/
def qofInt (n : ℤ) : ℚ := mkRat n 1

/-- Rational addition via `mkRat`. -/
def qadd (a b : ℚ) : ℚ := mkRat (a.num * b.den + b.num * a.den) (a.den * b.den)

/-- Rational multiplication via `mkRat`. -/
def qmul (a b : ℚ) : ℚ := mkRat (a.num * b.num) (a.den * b.den)

/-- The fraction `n / d` of two integers as a rational (zero when `d`
is zero, like rational division). -/
def mkRatZ (n d : ℤ) : ℚ :=
  if d < 0 then mkRat (-n) d.natAbs else mkRat n d.natAbs

/-- Rational division via `mkRatZ` (zero denominator yields zero, exactly
as `HDiv.hDiv` on `Rat`). -/
def qdiv (a b : ℚ) : ℚ := mkRatZ (a.num * b.den) (a.den * b.num)

theorem qofInt_eq (n : ℤ) : qofInt n = (n : ℚ) := by
  unfold qofInt
  rw [Rat.mkRat_eq_div]
  simp

theorem qadd_eq (a b : ℚ) : qadd a b = a + b := by
  unfold qadd
  rw [Rat.mkRat_eq_div]
  have hda : ((a.den : ℚ)) ≠ 0 := Nat.cast_ne_zero.mpr (Rat.den_ne_zero a)
  have hdb : ((b.den : ℚ)) ≠ 0 := Nat.cast_ne_zero.mpr (Rat.den_ne_zero b)
  conv_rhs => rw [← Rat.num_div_den a, ← Rat.num_div_den b]
  rw [div_add_div _ _ hda hdb]
  push_cast
  ring_nf

theorem qmul_eq (a b : ℚ) : qmul a b = a * b := by
  unfold qmul
  rw [Rat.mkRat_eq_div]
  conv_rhs => rw [← Rat.num_div_den a, ← Rat.num_div_den b]
  rw [div_mul_div_comm]
  push_cast
  ring_nf

theorem mkRatZ_eq (n d : ℤ) : mkRatZ n d = (n : ℚ) / (d : ℚ) := by
  unfold mkRatZ
  by_cases hd : d < 0
  · rw [if_pos hd, Rat.mkRat_eq_div]
    have h2 : ((d.natAbs : ℕ) : ℚ) = -(d : ℚ) := by
      rw [Int.cast_natAbs, abs_of_neg hd]
      push_cast
      ring
    push_cast
    rw [h2, div_neg, neg_div, neg_neg]
  · rw [if_neg hd, Rat.mkRat_eq_div]
    have h2 : ((d.natAbs : ℕ) : ℚ) = (d : ℚ) := by
      rw [Int.cast_natAbs, abs_of_nonneg (le_of_not_lt hd)]
    rw [h2]

theorem qdiv_eq (a b : ℚ) : qdiv a b = a / b := by
  unfold qdiv
  rw [mkRatZ_eq]
  by_cases hb : b = 0
  · subst hb
    simp
  · have hbn : (b.num : ℚ) ≠ 0 := by
      simpa using Rat.num_ne_zero.mpr hb
    have hda : ((a.den : ℚ)) ≠ 0 := Nat.cast_ne_zero.mpr (Rat.den_ne_zero a)
    have hdb : ((b.den : ℚ)) ≠ 0 := Nat.cast_ne_zero.mpr (Rat.den_ne_zero b)
    conv_rhs => rw [← Rat.num_div_den a, ← Rat.num_div_den b]
    rw [div_div_div_comm]
    push_cast
    rw [div_div_eq_mul_div, div_mul_eq_mul_div, mul_comm]
    rw [div_div]
    ring

/-! ### Column Normalizer (`clean_and_standardize_columns`, lines 13-22)

The source chains `df.columns.astype(str).str.strip()`, `.str.lower()`,
`.str.replace('[^a-z0-9_]+', '_', regex=True)` and `.str.strip('_')`. -/

/-- Characters the normalized alphabet keeps: `[a-z0-9_]` (by code point). -/
def allowedChar (c : Char) : Bool :=
  (decide (97 ≤ c.toNat) && decide (c.toNat ≤ 122)) ||
  (decide (48 ≤ c.toNat) && decide (c.toNat ≤ 57)) || decide (c.toNat = 95)

/-- ASCII whitespace stripped by `str.strip()`. -/
def wsChar (c : Char) : Bool :=
  decide (c.toNat = 32) || decide (c.toNat = 9) || decide (c.toNat = 10) ||
  decide (c.toNat = 13) || decide (c.toNat = 11) || decide (c.toNat = 12)

/-- ASCII lowercasing of one character, as `str.lower()` does on `[A-Z]`. -/
def lowerChar (c : Char) : Char :=
  if 65 ≤ c.toNat && c.toNat ≤ 90 then Char.ofNat (c.toNat + 32) else c

/-- Drop matching characters from the end of a list. -/
def dropEnd (p : Char → Bool) (l : List Char) : List Char :=
  (l.reverse.dropWhile p).reverse

/-- Drop matching characters from both ends. -/
def stripBoth (p : Char → Bool) (l : List Char) : List Char :=
  dropEnd p (l.dropWhile p)

theorem length_dropWhile_le {α : Type} (p : α → Bool) (l : List α) :
    (l.dropWhile p).length ≤ l.length :=
  (List.dropWhile_suffix p).sublist.length_le

/-- One pass of the `[^a-z0-9_]+ -> _` regex substitution; the flag
records whether the previous character was part of a disallowed run (so
the run contributes only one underscore). -/
def replaceRunsAux : Bool → List Char → List Char
  | _, [] => []
  | inRun, c :: rest =>
    if allowedChar c then c :: replaceRunsAux false rest
    else if inRun then replaceRunsAux true rest
    else '_' :: replaceRunsAux true rest

/-- Replace each maximal run of characters outside `[a-z0-9_]` with one
underscore (the `[^a-z0-9_]+ -> _` regex substitution). -/
def replaceRuns (l : List Char) : List Char := replaceRunsAux false l

/-- Normalization of one column name: strip, lowercase, collapse runs of
characters outside the alphabet to `_`, strip edge underscores. -/
def normalizeName (s : String) : String :=
  String.mk (stripBoth (fun c => decide (c = '_'))
    (replaceRuns ((stripBoth wsChar s.data).map lowerChar)))

/-- `clean_and_standardize_columns` (lines 13-22): rename every column by
`normalizeName`, leaving the cell data untouched. -/
def clean_and_standardize_columns (R : Relation) : Relation :=
  { cols := R.cols.map normalizeName,
    rows := R.rows.map (fun r => r.map (fun p => (normalizeName p.1, p.2))) }

/-! #### Idempotence of the normalizer -/

theorem mem_dropWhile {p : Char → Bool} {l : List Char} {c : Char}
    (h : c ∈ l.dropWhile p) : c ∈ l := by
  obtain ⟨pre, hpre⟩ := List.dropWhile_suffix p (l := l)
  rw [← hpre]
  exact List.mem_append_right pre h

theorem mem_dropEnd {p : Char → Bool} {l : List Char} {c : Char}
    (h : c ∈ dropEnd p l) : c ∈ l := by
  unfold dropEnd at h
  rw [List.mem_reverse] at h
  exact List.mem_reverse.mp (mem_dropWhile h)

theorem mem_stripBoth {p : Char → Bool} {l : List Char} {c : Char}
    (h : c ∈ stripBoth p l) : c ∈ l :=
  mem_dropWhile (mem_dropEnd h)

theorem allowed_of_mem_replaceRunsAux {l : List Char} :
    ∀ {b : Bool} {c : Char}, c ∈ replaceRunsAux b l → allowedChar c = true := by
  induction l with
  | nil =>
    intro b c h
    simp [replaceRunsAux] at h
  | cons d rest ih =>
    intro b c h
    rw [replaceRunsAux] at h
    by_cases hd : allowedChar d = true
    · rw [if_pos hd] at h
      rcases List.mem_cons.mp h with h | h
      · exact h ▸ hd
      · exact ih h
    · rw [if_neg hd] at h
      cases b with
      | true =>
        rw [if_pos rfl] at h
        exact ih h
      | false =>
        rw [if_neg (by simp)] at h
        rcases List.mem_cons.mp h with h | h
        · subst h; decide
        · exact ih h

theorem allowed_of_mem_replaceRuns {l : List Char} {c : Char}
    (h : c ∈ replaceRuns l) : allowedChar c = true :=
  allowed_of_mem_replaceRunsAux h

theorem allowed_not_ws {c : Char} (h : allowedChar c = true) : wsChar c = false := by
  simp only [allowedChar, Bool.or_eq_true, Bool.and_eq_true, decide_eq_true_eq] at h
  simp only [wsChar, Bool.or_eq_false_iff, decide_eq_false_iff_not]
  omega

theorem allowed_lower_fix {c : Char} (h : allowedChar c = true) : lowerChar c = c := by
  simp only [allowedChar, Bool.or_eq_true, Bool.and_eq_true, decide_eq_true_eq] at h
  unfold lowerChar
  rw [if_neg]
  simp only [Bool.and_eq_true, decide_eq_true_eq, not_and]
  omega

theorem dropWhile_eq_self_of_none {p : Char → Bool} {l : List Char}
    (h : ∀ c ∈ l, p c = false) : l.dropWhile p = l := by
  cases l with
  | nil => rfl
  | cons c t => rw [List.dropWhile_cons, if_neg (by simp [h c (by simp)])]

theorem dropEnd_eq_self_of_none {p : Char → Bool} {l : List Char}
    (h : ∀ c ∈ l, p c = false) : dropEnd p l = l := by
  unfold dropEnd
  rw [dropWhile_eq_self_of_none (fun c hc => h c (List.mem_reverse.mp hc)), List.reverse_reverse]

theorem stripBoth_eq_self_of_none {p : Char → Bool} {l : List Char}
    (h : ∀ c ∈ l, p c = false) : stripBoth p l = l := by
  unfold stripBoth
  rw [dropWhile_eq_self_of_none h, dropEnd_eq_self_of_none h]

theorem map_lower_eq_self_of_allowed {l : List Char}
    (h : ∀ c ∈ l, allowedChar c = true) : l.map lowerChar = l := by
  induction l with
  | nil => rfl
  | cons c t ih =>
    simp only [List.map_cons, allowed_lower_fix (h c (by simp)),
      ih (fun d hd => h d (by simp [hd])), List.cons.injEq, and_self]

theorem replaceRuns_eq_self_of_allowed {l : List Char}
    (h : ∀ c ∈ l, allowedChar c = true) : replaceRuns l = l := by
  unfold replaceRuns
  induction l with
  | nil => rfl
  | cons c t ih =>
    rw [replaceRunsAux, if_pos (h c (by simp)), ih (fun d hd => h d (by simp [hd]))]

theorem head_dropWhile_false (p : Char → Bool) (l : List Char) :
    ∀ c ∈ (l.dropWhile p).head?, p c = false := by
  induction l with
  | nil => simp
  | cons c t ih =>
    rw [List.dropWhile_cons]
    by_cases h : p c = true
    · simpa [h] using ih
    · simp only [Bool.not_eq_true] at h
      simp [h]

theorem dropWhile_idem (p : Char → Bool) (l : List Char) :
    (l.dropWhile p).dropWhile p = l.dropWhile p := by
  cases h : l.dropWhile p with
  | nil => rfl
  | cons c t =>
    have hc : p c = false := by
      have := head_dropWhile_false p l c
      rw [h] at this
      exact this rfl
    rw [List.dropWhile_cons, if_neg (by simp [hc])]

theorem dropEnd_idem (p : Char → Bool) (l : List Char) :
    dropEnd p (dropEnd p l) = dropEnd p l := by
  unfold dropEnd
  rw [List.reverse_reverse, dropWhile_idem]

theorem head_fails_of_dropWhile_fix {p : Char → Bool} {l : List Char} {c : Char} {t : List Char}
    (h : l.dropWhile p = l) (hl : l = c :: t) : p c = false := by
  subst hl
  rw [List.dropWhile_cons] at h
  by_cases hc : p c = true
  · rw [if_pos hc] at h
    have := length_dropWhile_le p t
    rw [h] at this
    simp at this
  · simpa using hc

theorem dropEnd_isPrefix (p : Char → Bool) (l : List Char) : dropEnd p l <+: l := by
  unfold dropEnd
  have h := List.reverse_prefix.mpr (List.dropWhile_suffix p (l := l.reverse))
  rwa [List.reverse_reverse] at h

theorem dropWhile_dropEnd_fix {p : Char → Bool} {l : List Char}
    (h : l.dropWhile p = l) : (dropEnd p l).dropWhile p = dropEnd p l := by
  cases hde : dropEnd p l with
  | nil => rfl
  | cons c t =>
    have hpre := dropEnd_isPrefix p l
    rw [hde] at hpre
    obtain ⟨s, hs⟩ := hpre
    have hl : l = c :: (t ++ s) := by rw [← hs]; rfl
    have hc : p c = false := head_fails_of_dropWhile_fix h hl
    rw [List.dropWhile_cons, if_neg (by simp [hc])]

theorem stripBoth_idem (p : Char → Bool) (l : List Char) :
    stripBoth p (stripBoth p l) = stripBoth p l := by
  unfold stripBoth
  rw [dropWhile_dropEnd_fix (dropWhile_idem p l), dropEnd_idem]

theorem allowed_of_mem_normalized {s : String} {c : Char}
    (h : c ∈ (normalizeName s).data) : allowedChar c = true := by
  unfold normalizeName at h
  exact allowed_of_mem_replaceRuns (mem_stripBoth h)

/-- Claim C7 core: `normalizeName` is idempotent. -/
theorem normalizeName_idem (s : String) :
    normalizeName (normalizeName s) = normalizeName s := by
  have hall : ∀ c ∈ (normalizeName s).data, allowedChar c = true :=
    fun c hc => allowed_of_mem_normalized hc
  conv_lhs => rw [normalizeName]
  rw [stripBoth_eq_self_of_none (fun c hc => allowed_not_ws (hall c hc)),
    map_lower_eq_self_of_allowed hall,
    replaceRuns_eq_self_of_allowed hall]
  show String.mk (stripBoth (fun c => decide (c = '_')) (normalizeName s).data) = _
  unfold normalizeName
  rw [stripBoth_idem]

theorem map_normalizeName_idem (l : List String) :
    (l.map normalizeName).map normalizeName = l.map normalizeName := by
  induction l with
  | nil => rfl
  | cons c t ih => simp only [List.map_cons, normalizeName_idem, ih]

theorem row_normalize_idem (r : Row) :
    (r.map (fun p => (normalizeName p.1, p.2))).map (fun p => (normalizeName p.1, p.2)) =
      r.map (fun p => (normalizeName p.1, p.2)) := by
  induction r with
  | nil => rfl
  | cons c t ih => simp only [List.map_cons, normalizeName_idem, ih]

theorem rows_normalize_idem (rs : List Row) :
    (rs.map (fun r => r.map (fun p => (normalizeName p.1, p.2)))).map
        (fun r => r.map (fun p => (normalizeName p.1, p.2))) =
      rs.map (fun r => r.map (fun p => (normalizeName p.1, p.2))) := by
  induction rs with
  | nil => rfl
  | cons c t ih => simp only [List.map_cons, row_normalize_idem, ih]

theorem row_data_preserved (r : Row) :
    (r.map (fun p => (normalizeName p.1, p.2))).map Prod.snd = r.map Prod.snd := by
  induction r with
  | nil => rfl
  | cons c t ih => simp only [List.map_cons, ih]

/-! ### Key Resolver (`standardize_order_id`, lines 24-40) -/

/-- The candidate alias list of `standardize_order_id` (line 30). -/
def possible_id_names : List String := ["order_id", "orderid", "order_id_"]

/-- `df.rename(columns=...)` for a single old/new pair: every column whose
name equals `old` is renamed to `new`, in the header and in every row. -/
def renameCol (old new : String) (R : Relation) : Relation :=
  { cols := R.cols.map (fun c => if c = old then new else c),
    rows := R.rows.map (fun r => r.map (fun p => (if p.1 = old then new else p.1, p.2))) }

/-- `standardize_order_id` (lines 24-40) with its fixed target name `id`:
scan the candidate aliases in order and rename the first one present;
otherwise report success if `id` already exists, failure if not.  Returns
the success flag together with the (possibly renamed) relation. -/
def standardize_order_id (R : Relation) : Bool × Relation :=
  match possible_id_names.find? (fun n => R.cols.contains n) with
  | some n => (true, renameCol n "id" R)
  | none => if R.cols.contains "id" then (true, R) else (false, R)

/-! ### Value Coercer (lines 82-94)

`orders_df[col].astype(str).str.replace('$', '').str.replace(',', '')`
followed by `pd.to_numeric(..., errors='coerce').fillna(0)`.

`pd.to_numeric` on a string can produce a finite float, an IEEE infinity
(for `inf` spellings) or NaN (anything unparseable), so its codomain is
modelled exactly. -/

/-- Result of `pd.to_numeric` on one string. -/
inductive NumVal : Type where
  | fin (q : ℚ)
  | pinf
  | ninf
  | nan
deriving DecidableEq

/-- Remove every dollar sign and comma (the two `str.replace` calls). -/
def stripCurrency (s : String) : String :=
  String.mk (s.data.filter (fun c => !(c = '$' || c = ',')))

/-- Digit test by code point. -/
def isDigitChar (c : Char) : Bool := decide (48 ≤ c.toNat) && decide (c.toNat ≤ 57)

/-- Numeric value of a digit string (most significant first). -/
def natOfDigits (l : List Char) : ℕ := l.foldl (fun a c => a * 10 + (c.toNat - 48)) 0

/-- Lowercased copy of a character list (for case-insensitive keywords). -/
def lowerAll (l : List Char) : List Char := l.map lowerChar

/-- Mantissa grammar: `digits`, `digits.digits`, `.digits` or `digits.`
with at least one digit overall. -/
def parseMantissa (l : List Char) : Option ℚ :=
  let intPart := l.takeWhile isDigitChar
  let rest := l.dropWhile isDigitChar
  match rest with
  | [] => if intPart.isEmpty then none else some (qofInt (natOfDigits intPart))
  | '.' :: frac =>
    if frac.all isDigitChar && !(intPart.isEmpty && frac.isEmpty) then
      some (qadd (qofInt (natOfDigits intPart))
        (mkRat (natOfDigits frac) (10 ^ frac.length)))
    else none
  | _ => none

/-- Exponent grammar: optional sign then a nonempty digit string. -/
def parseExponent : List Char → Option ℤ
  | [] => none
  | '+' :: r => if r.all isDigitChar && !r.isEmpty then some (natOfDigits r) else none
  | '-' :: r => if r.all isDigitChar && !r.isEmpty then some (-(natOfDigits r : ℤ)) else none
  | r => if r.all isDigitChar && !r.isEmpty then some (natOfDigits r) else none

/-- Scaling by a power of ten (the exponent part of a literal). -/
def qscale10 (q : ℚ) (e : ℤ) : ℚ :=
  if 0 ≤ e then qmul q (mkRat ((10 ^ e.toNat : ℕ) : ℤ) 1)
  else qmul q (mkRat 1 (10 ^ (-e).toNat))

/-- Unsigned numeric literal: mantissa with an optional `e`/`E` exponent,
or an infinity / NaN keyword. -/
def parseUnsigned (l : List Char) : Option NumVal :=
  if lowerAll l = "inf".data || lowerAll l = "infinity".data then some NumVal.pinf
  else if lowerAll l = "nan".data then some NumVal.nan
  else
    let m := l.takeWhile (fun c => !(c = 'e' || c = 'E'))
    let r := l.dropWhile (fun c => !(c = 'e' || c = 'E'))
    match r with
    | [] => (parseMantissa m).map NumVal.fin
    | _ :: expPart =>
      match parseMantissa m, parseExponent expPart with
      | some q, some e => some (NumVal.fin (qscale10 q e))
      | _, _ => none

/-- Negation on `pd.to_numeric` values. -/
def negNumVal : NumVal → NumVal
  | NumVal.fin q => NumVal.fin (-q)
  | NumVal.pinf => NumVal.ninf
  | NumVal.ninf => NumVal.pinf
  | NumVal.nan => NumVal.nan

/-- `pd.to_numeric(s, errors='coerce')` for a string `s`: strip edge
whitespace, optional sign, then the unsigned grammar; anything else
coerces to NaN. -/
def to_numeric_val (s : String) : NumVal :=
  let l := stripBoth wsChar s.data
  let core :=
    match l with
    | '-' :: r => (parseUnsigned r).map negNumVal
    | '+' :: r => parseUnsigned r
    | r => parseUnsigned r
  core.getD NumVal.nan

/-- NaN-to-zero, the `.fillna(0)` applied right after `pd.to_numeric`. -/
def fillnaZeroVal : NumVal → NumVal
  | NumVal.nan => NumVal.fin 0
  | v => v

/-- Update one entry of a row: overwrite every entry named `n` if present,
otherwise append a new entry at the end (pandas column assignment). -/
def rowSet (n : String) (v : Cell) (r : Row) : Row :=
  if (r.lookup n).isSome then r.map (fun p => if p.1 = n then (p.1, v) else p)
  else r ++ [(n, v)]

/-- Column assignment `df[n] = vals`: overwrite the column if present,
append it otherwise. -/
def setCol (n : String) (vals : List Cell) (R : Relation) : Relation :=
  { cols := if R.cols.contains n then R.cols else R.cols ++ [n],
    rows := List.zipWith (fun v r => rowSet n v r) vals R.rows }

/-- `df.drop(columns=[n])`. -/
def dropCol (n : String) (R : Relation) : Relation :=
  { cols := R.cols.filter (fun c => c ≠ n),
    rows := R.rows.map (fun r => r.filter (fun p => p.1 ≠ n)) }

/-- Column projection `df[names]` in the given order; a name a row lacks
yields NaN (never hit by the pipeline, which projects existing columns). -/
def selectCols (names : List String) (R : Relation) : Relation :=
  { cols := names,
    rows := R.rows.map (fun r => names.map (fun n => (n, rowCell r n))) }

/-- Key cells of the rows that survive `drop_duplicates(subset=[key])`
(keep first): recursion over rows with the set of already seen key cells.
Pandas treats NaN keys as equal, and so does plain `Cell` equality. -/
def dedupGo (key : String) (seen : List Cell) : List Row → List Row
  | [] => []
  | r :: rest =>
    if rowCell r key ∈ seen then dedupGo key seen rest
    else r :: dedupGo key (rowCell r key :: seen) rest

/-- `df.drop_duplicates(subset=[key])` with the default keep-first policy. -/
def dedupFirst (R : Relation) (key : String) : Relation :=
  { cols := R.cols, rows := dedupGo key [] R.rows }

/-- Distinct values in first-seen order, with an accumulator of values
already emitted. -/
def uniqueGo (seen : List Cell) : List Cell → List Cell
  | [] => []
  | c :: rest => if c ∈ seen then uniqueGo seen rest else c :: uniqueGo (c :: seen) rest

/-- `Series.unique()`: distinct values in first-seen order (NaN included). -/
def uniqueCells (l : List Cell) : List Cell := uniqueGo [] l

/-- `np.random.choice(keys, size=n)` under an arbitrary random source
`rng`: row `i` receives `keys[rng i % keys.length]`. -/
def assignFrom (keys : List Cell) (rng : ℕ → ℕ) (n : ℕ) : List Cell :=
  (List.range n).map (fun i => keys.getD (rng i % keys.length) Cell.na)

/-- Join-key matching: plain cell equality.  pandas `merge` factorizes
the key columns with hash tables whose float/object variants treat NaN as
equal to NaN, so a missing key on the left matches a missing key on the
right. -/
def cellMatch (a b : Cell) : Bool := a == b

/-- Suffix renaming applied to columns that collide across a merge. -/
def sufRename (ov : List String) (suf : String) (n : String) : String :=
  if n ∈ ov then n ++ suf else n

/-- Rename the names of a row by `f`. -/
def rowRename (f : String → String) (r : Row) : Row :=
  r.map (fun p => (f p.1, p.2))

/-- Colliding columns of a merge: names common to both sides and not
excluded (the `on=` key is excluded; `left_on`/`right_on` keys are not). -/
def mergeOv (L R : Relation) (excl : List String) : List String :=
  L.cols.filter (fun c => R.cols.contains c && !excl.contains c)

/-- The right-hand columns a merge keeps (the `on=` key is dropped from
the right side, `left_on`/`right_on` keys are both kept). -/
def mergeKeptR (R : Relation) (rkey : String) (dropRight : Bool) : List String :=
  if dropRight then R.cols.filter (fun c => c ≠ rkey) else R.cols

/-- The right-hand fragment contributed by a matched right row. -/
def mergeProcR (fR : String → String) (rkey : String) (dropRight : Bool) (rr : Row) : Row :=
  rowRename fR (if dropRight then rr.filter (fun p => p.1 ≠ rkey) else rr)

/-- The columns excluded from collision suffixing (`on=` keys only). -/
def mergeExcl (dropRight : Bool) (lkey : String) : List String :=
  if dropRight then [lkey] else []

/-- Left-side column renaming of a merge. -/
def mergeFL (L R : Relation) (lkey sufL : String) (dropRight : Bool) : String → String :=
  sufRename (mergeOv L R (mergeExcl dropRight lkey)) sufL

/-- Right-side column renaming of a merge. -/
def mergeFR (L R : Relation) (lkey sufR : String) (dropRight : Bool) : String → String :=
  sufRename (mergeOv L R (mergeExcl dropRight lkey)) sufR

/-- The final names of the right-hand columns a merge contributes. -/
def mergeRCols (L R : Relation) (lkey rkey sufR : String) (dropRight : Bool) : List String :=
  (mergeKeptR R rkey dropRight).map (mergeFR L R lkey sufR dropRight)

/-- The NaN padding used for an unmatched left row. -/
def mergePad (L R : Relation) (lkey rkey sufR : String) (dropRight : Bool) : Row :=
  (mergeRCols L R lkey rkey sufR dropRight).map (fun c => (c, Cell.na))

/-- The right rows matching one key cell. -/
def mergeMatches (R : Relation) (rkey : String) (k : Cell) : List Row :=
  R.rows.filter (fun rr => cellMatch k (rowCell rr rkey))

/-- `pd.merge(L, R, how='left')`.  `dropRight = true` models `on=key`
(`lkey = rkey = key`, right key column dropped); `dropRight = false`
models `left_on=lkey, right_on=rkey` (both key columns kept).  Each left
row is emitted once per matching right row, or once with NaN padding when
nothing matches; colliding non-key columns get the suffixes. -/
def mergeAux (L R : Relation) (lkey rkey sufL sufR : String) (dropRight : Bool) : Relation :=
  { cols := L.cols.map (mergeFL L R lkey sufL dropRight) ++ mergeRCols L R lkey rkey sufR dropRight,
    rows := L.rows.flatMap (fun lr =>
      let ms := mergeMatches R rkey (rowCell lr lkey)
      if ms.isEmpty then
        [rowRename (mergeFL L R lkey sufL dropRight) lr ++ mergePad L R lkey rkey sufR dropRight]
      else ms.map (fun rr => rowRename (mergeFL L R lkey sufL dropRight) lr ++
        mergeProcR (mergeFR L R lkey sufR dropRight) rkey dropRight rr)) }

/-- The right-hand fragment a left row ends up carrying: the first
matching right row processed, or the NaN padding. -/
def mergeRight (L R : Relation) (lkey rkey sufR : String) (dropRight : Bool) (lr : Row) : Row :=
  match (mergeMatches R rkey (rowCell lr lkey)).head? with
  | some rr => mergeProcR (mergeFR L R lkey sufR dropRight) rkey dropRight rr
  | none => mergePad L R lkey rkey sufR dropRight

/-- Left merge `on=key`. -/
def mergeKey (L R : Relation) (key sufL sufR : String) : Relation :=
  mergeAux L R key key sufL sufR true

/-- Left merge with distinct `left_on`/`right_on` keys. -/
def mergeOn2 (L R : Relation) (lkey rkey sufL sufR : String) : Relation :=
  mergeAux L R lkey rkey sufL sufR false

/-- NaN-to-zero on one cell (`fillna(0)`). -/
def fillCell (c : Cell) : Cell := if c = Cell.na then Cell.num 0 else c

/-- `df.fillna(0)` over the whole relation (line 145). -/
def fillnaZero (R : Relation) : Relation :=
  { cols := R.cols,
    rows := R.rows.map (fun r => r.map (fun p => (p.1, fillCell p.2))) }

/-- Arithmetic mean of the present numeric cells; NaN when none exist
(`Series.mean()` skipping NaN). -/
def colMean (cells : List Cell) : Cell :=
  let qs := cells.filterMap (fun c => match c with | Cell.num q => some q | _ => none)
  if qs.isEmpty then Cell.na else Cell.num (qdiv (qs.foldl qadd 0) (qofInt qs.length))

/-- Product of two cells; NaN unless both are numeric. -/
def cellMul : Cell → Cell → Cell
  | Cell.num a, Cell.num b => Cell.num (qmul a b)
  | _, _ => Cell.na

/-- The `carbon_cost_per_value` division of line 140 composed with the
`replace([inf, -inf], nan)` of line 143: a zero denominator yields
infinity or NaN, both of which that replacement turns into NaN. -/
def cellDiv : Cell → Cell → Cell
  | Cell.num a, Cell.num b => if b = 0 then Cell.na else Cell.num (qdiv a b)
  | _, _ => Cell.na

/-! ### The Join Pipeline (`load_and_merge_data`, lines 42-153)

CSV reading is out of scope; the pipeline takes the five relations as
already-loaded inputs.  The two `np.random.choice` calls are modelled by
two arbitrary random sources `rngR`, `rngV`.  A raised exception, caught
by the handlers of lines 147-153 (`st.error` followed by `st.stop`, so no
relation is ever returned), is modelled by `Except.error`. -/

/-- The five input relations, in the order the source loads them. -/
structure Inputs : Type where
  orders : Relation
  routes : Relation
  fleet : Relation
  performance : Relation
  cost : Relation
deriving DecidableEq

/-- Step 1 (lines 57-62): normalize all five column sets. -/
def stageNormalize (I : Inputs) : Inputs :=
  { orders := clean_and_standardize_columns I.orders,
    routes := clean_and_standardize_columns I.routes,
    fleet := clean_and_standardize_columns I.fleet,
    performance := clean_and_standardize_columns I.performance,
    cost := clean_and_standardize_columns I.cost }

/-- Error message of line 68. -/
def keyErrorMsg : String := "Missing id key after rename attempt in a primary DataFrame."

/-- Step 2 (lines 64-68): resolve the order id on orders, cost and
performance, in that order; the first failure raises. -/
def stageResolveIds (I : Inputs) : Except String Inputs :=
  let ro := standardize_order_id I.orders
  if !ro.1 then Except.error keyErrorMsg else
  let rc := standardize_order_id I.cost
  if !rc.1 then Except.error keyErrorMsg else
  let rp := standardize_order_id I.performance
  if !rp.1 then Except.error keyErrorMsg else
  Except.ok { I with orders := ro.2, cost := rc.2, performance := rp.2 }

/-- Substring test (Python `in` on strings). -/
def isSubstr (pat s : String) : Bool :=
  (List.range (s.data.length + 1)).any (fun i => pat.data.isPrefixOf (s.data.drop i))

/-- Lines 70-76: settle the fuel/labor/maintenance cost column name. -/
def stageCostCol (R : Relation) : Relation :=
  if R.cols.contains "fuel_labor_maintenance_costs" then
    renameCol "fuel_labor_maintenance_costs" "fuel_labor_maintenance_costs_inr" R
  else if R.cols.contains "fuel_labor_maintenance_costs_inr" then R
  else
    match R.cols.filter (fun c => isSubstr "labor" c || isSubstr "fuel" c) with
    | [] => R
    | c :: _ => renameCol c "fuel_labor_maintenance_costs_inr" R

/-- Lines 78-80: rename a `route` column of the routes relation to
`route_id`. -/
def stageRouteFix (R : Relation) : Relation :=
  if R.cols.contains "route" then renameCol "route" "route_id" R else R

/-- The cleaned (currency-stripped) string image of one cell, as
`astype(str)` followed by the two `str.replace` calls produces it.  A
numeric cell keeps its value through the string round trip, and NaN
prints as the string `nan`. -/
def cleanCell : Cell → Cell
  | Cell.str s => Cell.str (stripCurrency s)
  | Cell.num q => Cell.num q
  | Cell.na => Cell.str "nan"

/-- `pd.to_numeric(..., errors='coerce').fillna(0)` on one cleaned cell.
A numeric value passes through; a string goes through the string grammar;
an infinite parse has no representation in the finite cell domain and is
mapped to NaN (see the header note). -/
def toNumericFill0 : Cell → ℚ
  | Cell.num q => q
  | Cell.str s =>
    match fillnaZeroVal (to_numeric_val s) with
    | NumVal.fin q => q
    | _ => 0
  | Cell.na => 0

/-- Lines 82-94: find an `order_value...inr` column; if present, derive
`order_value_cleaned` (stripped strings) and `order_value_usd` (numeric,
NaN to 0); otherwise set `order_value_usd` to 0 everywhere. -/
def stageOrderValue (R : Relation) : Relation :=
  match R.cols.filter (fun c => isSubstr "order_value" c && isSubstr "inr" c) with
  | [] => setCol "order_value_usd" (R.rows.map (fun _ => Cell.num 0)) R
  | c :: _ =>
    let cleaned := R.rows.map (fun r => cleanCell (rowCell r c))
    let R1 := setCol "order_value_cleaned" cleaned R
    setCol "order_value_usd" (cleaned.map (fun cc => Cell.num (toNumericFill0 cc))) R1

/-- Link 1 (line 99): left-join orders with performance on `id`; pandas
raises `KeyError` when either side lacks the key. -/
def link1 (orders performance : Relation) : Except String Relation :=
  if orders.cols.contains "id" && performance.cols.contains "id" then
    Except.ok (mergeKey orders performance "id" "_x" "_y")
  else Except.error "KeyError: id"

/-- Lines 107-109: drop an `id` column from routes before the route join. -/
def routesPrepared (routes : Relation) : Relation :=
  if routes.cols.contains "id" then dropCol "id" routes else routes

/-- Lines 101-105: ensure the merged relation carries a `route_id`
column, synthesizing it from the distinct route keys when absent (raising
as `routes_df[...]` or `np.random.choice` would when routes lacks the key
or has no keys). -/
def link2Route (rngR : ℕ → ℕ) (m1 routes : Relation) : Except String Relation :=
  if m1.cols.contains "route_id" then Except.ok m1
  else if !(routes.cols.contains "route_id") then Except.error "KeyError: route_id"
  else if (uniqueCells (getColCells routes "route_id")).isEmpty then
    Except.error "ValueError: a must be non-empty"
  else Except.ok (setCol "route_id"
    (assignFrom (uniqueCells (getColCells routes "route_id")) rngR m1.rows.length) m1)

/-- Link 2 (lines 101-112): synthesize `route_id` when absent, drop a
routes `id` column, left-join routes and settle `distance_km`. -/
def link2 (rngR : ℕ → ℕ) (m1 routes : Relation) : Except String Relation :=
  match link2Route rngR m1 routes with
  | Except.error e => Except.error e
  | Except.ok m1b =>
    if !((routesPrepared routes).cols.contains "route_id") then Except.error "KeyError: route_id"
    else Except.ok (renameCol "distance_km_route" "distance_km"
      (mergeKey m1b (routesPrepared routes) "route_id" "_order" "_route"))

/-- Link 3 (lines 114-119): assign a vehicle type to every row from the
distinct fleet vehicle types, then left-join the fleet relation on it. -/
def link3 (rngV : ℕ → ℕ) (m2 fleet : Relation) : Except String Relation :=
  if !(fleet.cols.contains "vehicle_type") then Except.error "KeyError: vehicle_type"
  else
    let vts := uniqueCells (getColCells fleet "vehicle_type")
    if vts.isEmpty then Except.error "ValueError: a must be non-empty"
    else
      let m3 := setCol "assigned_vehicle_type" (assignFrom vts rngV m2.rows.length) m2
      Except.ok (mergeOn2 m3 fleet "assigned_vehicle_type" "vehicle_type" "_merge" "_fleet")

/-- The column projection of lines 122-123: `id` first, the rest in order. -/
def link4Sel (cost : Relation) : Relation :=
  selectCols ("id" :: cost.cols.filter (fun c => c ≠ "id")) cost

/-- The deduplicated right side of Link 4 (line 125). -/
def link4Dedup (cost : Relation) : Relation :=
  dedupFirst (link4Sel cost) "id"

/-- Link 4 (lines 121-126): project the cost columns, collapse duplicate
ids keeping the first occurrence, and left-join on `id`. -/
def link4 (m4 cost : Relation) : Except String Relation :=
  if !(cost.cols.contains "id") then Except.error "KeyError: id"
  else if !(m4.cols.contains "id") then Except.error "KeyError: id"
  else Except.ok (mergeKey m4 (link4Dedup cost) "id" "_final" "_cost")

/-- A column with its NaN entries replaced by the column mean. -/
def imputedColumn (name : String) (R : Relation) : List Cell :=
  (getColCells R name).map
    (fun c => if c = Cell.na then colMean (getColCells R name) else c)

/-- `df[name] = df[name].fillna(df[name].mean())` (lines 134-135), raising
when the column is absent. -/
def fillMeanCol (name : String) (R : Relation) : Except String Relation :=
  if !(R.cols.contains name) then Except.error ("KeyError: " ++ name)
  else Except.ok (setCol name (imputedColumn name R) R)

/-- The `total_co2_kg` column of line 137. -/
def totalColumn (R2 : Relation) : List Cell :=
  List.zipWith cellMul (getColCells R2 "distance_km")
    (getColCells R2 "co2_emissions_kg_per_km")

/-- The relation after line 137. -/
def metricsR3 (R2 : Relation) : Relation := setCol "total_co2_kg" (totalColumn R2) R2

/-- The `carbon_cost_per_value` column of lines 140-143 (division, the
infinity replacement folded into `cellDiv`, then `fillna(0)`). -/
def ccpvColumn (R3 : Relation) : List Cell :=
  (List.zipWith cellDiv (getColCells R3 "total_co2_kg")
    (getColCells R3 "order_value_usd")).map fillCell

/-- The relation after line 143. -/
def metricsR4 (R3 : Relation) : Relation :=
  setCol "carbon_cost_per_value" (ccpvColumn R3) R3

/-- Metric Derivation (lines 128-145): mean-impute distance and CO2
factor, derive `total_co2_kg` and `carbon_cost_per_value` (division by
zero and infinities collapsing to 0), then fill every remaining NaN. -/
def deriveMetrics (R0 : Relation) : Except String Relation :=
  match fillMeanCol "distance_km" R0 with
  | Except.error e => Except.error e
  | Except.ok R1 =>
    match fillMeanCol "co2_emissions_kg_per_km" R1 with
    | Except.error e => Except.error e
    | Except.ok R2 =>
      if !((metricsR3 R2).cols.contains "order_value_usd") then
        Except.error "KeyError: order_value_usd"
      else Except.ok (fillnaZero (metricsR4 (metricsR3 R2)))

/-- `load_and_merge_data` (lines 42-153) on five already-loaded relations:
normalize, resolve keys, coerce the order value, run the four links, then
derive the metrics.  `Except.error` stands for the fatal
`st.error`/`st.stop` path, which produces no relation. -/
def load_and_merge_data (rngR rngV : ℕ → ℕ) (I : Inputs) : Except String Relation :=
  match stageResolveIds (stageNormalize I) with
  | Except.error e => Except.error e
  | Except.ok Ir =>
    match link1 (stageOrderValue Ir.orders) Ir.performance with
    | Except.error e => Except.error e
    | Except.ok m1 =>
      match link2 rngR m1 (stageRouteFix Ir.routes) with
      | Except.error e => Except.error e
      | Except.ok m2 =>
        match link3 rngV m2 Ir.fleet with
        | Except.error e => Except.error e
        | Except.ok m4 =>
          match link4 m4 (stageCostCol Ir.cost) with
          | Except.error e => Except.error e
          | Except.ok m5 => deriveMetrics m5

/-- The successful pipeline output at an input, with an empty default
(used only to phrase closed witnesses). -/
def theOut (rngR rngV : ℕ → ℕ) (I : Inputs) : Relation :=
  (load_and_merge_data rngR rngV I).toOption.getD { cols := [], rows := [] }

instance : DecidableEq (Except String Relation) := fun a b =>
  match a, b with
  | Except.error x, Except.error y =>
    if h : x = y then isTrue (by rw [h]) else
      isFalse (fun hc => h (by injection hc))
  | Except.ok x, Except.ok y =>
    if h : x = y then isTrue (by rw [h]) else
      isFalse (fun hc => h (by injection hc))
  | Except.error x, Except.ok y => isFalse (fun hc => Except.noConfusion hc)
  | Except.ok x, Except.error y => isFalse (fun hc => Except.noConfusion hc)

/-! ### Lookup and row lemmas -/

theorem lookup_eq_none_of_not_mem {r : Row} {n : String}
    (h : n ∉ r.map Prod.fst) : r.lookup n = none := by
  induction r with
  | nil => rfl
  | cons p t ih =>
    simp only [List.map_cons, List.mem_cons, not_or] at h
    rw [List.lookup_cons]
    have : (n == p.1) = false := by simp [h.1]
    rw [this]
    exact ih h.2

theorem lookup_isSome_iff_mem {r : Row} {n : String} :
    (r.lookup n).isSome = true ↔ n ∈ r.map Prod.fst := by
  induction r with
  | nil => simp [List.lookup]
  | cons p t ih =>
    rw [List.lookup_cons]
    by_cases h : n = p.1
    · simp [h]
    · have : (n == p.1) = false := by simp [h]
      rw [this]
      simp only [List.map_cons, List.mem_cons]
      rw [ih]
      tauto

theorem lookup_append_some {r1 r2 : Row} {n : String} {v : Cell}
    (h : r1.lookup n = some v) : (r1 ++ r2).lookup n = some v := by
  induction r1 with
  | nil => simp [List.lookup] at h
  | cons p t ih =>
    rw [List.cons_append, List.lookup_cons]
    rw [List.lookup_cons] at h
    cases hb : (n == p.1) with
    | true => rw [hb] at h; exact h
    | false => rw [hb] at h; exact ih h

theorem lookup_append_none {r1 r2 : Row} {n : String}
    (h : r1.lookup n = none) : (r1 ++ r2).lookup n = r2.lookup n := by
  induction r1 with
  | nil => rfl
  | cons p t ih =>
    rw [List.cons_append, List.lookup_cons]
    rw [List.lookup_cons] at h
    cases hb : (n == p.1) with
    | true => rw [hb] at h; exact absurd h (by simp)
    | false => rw [hb] at h; exact ih h

theorem lookup_rowRename {f : String → String} {n : String}
    (hf : ∀ m, f m = n ↔ m = n) (r : Row) :
    (rowRename f r).lookup n = r.lookup n := by
  induction r with
  | nil => rfl
  | cons p t ih =>
    obtain ⟨k, w⟩ := p
    have heq : (n == f k) = (n == k) := by
      by_cases h : k = n
      · rw [(hf k).mpr h, h]
      · have h2 : f k ≠ n := fun hc => h ((hf k).mp hc)
        simp [Ne.symm h, Ne.symm h2]
    simp only [rowRename, List.map_cons, List.lookup_cons, heq]
    cases hb : (n == k) with
    | true => rfl
    | false => exact ih

theorem lookup_overwrite_self {n : String} {v : Cell} :
    ∀ {r : Row}, (r.lookup n).isSome = true →
      (r.map (fun p => if p.1 = n then (p.1, v) else p)).lookup n = some v := by
  intro r
  induction r with
  | nil => intro h; simp [List.lookup] at h
  | cons p t ih =>
    obtain ⟨k, w⟩ := p
    intro h
    rw [List.lookup_cons] at h
    simp only [List.map_cons]
    by_cases hp : k = n
    · rw [if_pos (show (k, w).1 = n from hp), List.lookup_cons]
      have hb : (n == k) = true := by simp [hp]
      rw [hb]
    · rw [if_neg (show ¬(k, w).1 = n from hp), List.lookup_cons]
      have hb : (n == k) = false := by simp [Ne.symm hp]
      rw [hb] at h ⊢
      exact ih h

theorem lookup_overwrite_other {m n : String} (hmn : m ≠ n) (v : Cell) :
    ∀ (r : Row),
      (r.map (fun p => if p.1 = n then (p.1, v) else p)).lookup m = r.lookup m := by
  intro r
  induction r with
  | nil => rfl
  | cons p t ih =>
    obtain ⟨k, w⟩ := p
    simp only [List.map_cons]
    by_cases hp : k = n
    · rw [if_pos (show (k, w).1 = n from hp), List.lookup_cons, List.lookup_cons]
      cases hb : (m == k) with
      | true =>
        exact absurd (by simpa using hb) (hp ▸ hmn)
      | false => exact ih
    · rw [if_neg (show ¬(k, w).1 = n from hp), List.lookup_cons, List.lookup_cons]
      cases hb : (m == k) with
      | true => rfl
      | false => exact ih

theorem lookup_rowSet_self (n : String) (v : Cell) (r : Row) :
    (rowSet n v r).lookup n = some v := by
  unfold rowSet
  by_cases h : (r.lookup n).isSome = true
  · rw [if_pos h]
    exact lookup_overwrite_self h
  · rw [if_neg h]
    have hn : r.lookup n = none := by
      cases hl : r.lookup n with
      | none => rfl
      | some w => rw [hl] at h; simp at h
    rw [lookup_append_none hn, List.lookup_cons]
    simp

theorem lookup_rowSet_other {m n : String} (hmn : m ≠ n) (v : Cell) (r : Row) :
    (rowSet n v r).lookup m = r.lookup m := by
  unfold rowSet
  by_cases h : (r.lookup n).isSome = true
  · rw [if_pos h]
    exact lookup_overwrite_other hmn v r
  · rw [if_neg h]
    cases hl : r.lookup m with
    | some w => exact lookup_append_some hl
    | none =>
      rw [lookup_append_none hl, List.lookup_cons]
      have hb : (m == n) = false := by simp [hmn]
      rw [hb]
      rfl

theorem rowCell_rowSet_self (n : String) (v : Cell) (r : Row) :
    rowCell (rowSet n v r) n = v := by
  unfold rowCell
  rw [lookup_rowSet_self]
  rfl

theorem rowCell_rowSet_other {m n : String} (hmn : m ≠ n) (v : Cell) (r : Row) :
    rowCell (rowSet n v r) m = rowCell r m := by
  unfold rowCell
  rw [lookup_rowSet_other hmn]

theorem lookup_fillRow (r : Row) (n : String) :
    (r.map (fun p => (p.1, fillCell p.2))).lookup n = (r.lookup n).map fillCell := by
  induction r with
  | nil => rfl
  | cons p t ih =>
    obtain ⟨k, w⟩ := p
    simp only [List.map_cons, List.lookup_cons]
    cases hb : (n == k) with
    | true => rfl
    | false => exact ih

theorem fsts_rowRename (f : String → String) (r : Row) :
    (rowRename f r).map Prod.fst = (r.map Prod.fst).map f := by
  induction r with
  | nil => rfl
  | cons p t ih =>
    simp only [rowRename, List.map_cons]
    exact congrArg (List.cons (f p.1)) ih

theorem fsts_overwrite (n : String) (v : Cell) (r : Row) :
    (r.map (fun p => if p.1 = n then (p.1, v) else p)).map Prod.fst = r.map Prod.fst := by
  induction r with
  | nil => rfl
  | cons p t ih =>
    simp only [List.map_cons]
    by_cases hp : p.1 = n
    · simp [hp, ih]
    · simp [hp, ih]

theorem fsts_rowSet (n : String) (v : Cell) (r : Row) :
    (rowSet n v r).map Prod.fst =
      if (r.lookup n).isSome then r.map Prod.fst else r.map Prod.fst ++ [n] := by
  unfold rowSet
  by_cases h : (r.lookup n).isSome = true
  · rw [if_pos h, if_pos h]
    exact fsts_overwrite n v r
  · rw [if_neg h, if_neg h]
    simp

theorem fsts_filter_ne (k : String) (r : Row) :
    (r.filter (fun p => p.1 ≠ k)).map Prod.fst = (r.map Prod.fst).filter (fun c => c ≠ k) := by
  induction r with
  | nil => rfl
  | cons p t ih =>
    obtain ⟨m, w⟩ := p
    simp only [List.filter_cons, List.map_cons]
    by_cases hp : m = k
    · simp only [List.filter_cons] at *
      simp [hp]
      simpa using ih
    · simp [hp]
      simpa using ih

theorem fsts_fillRow (r : Row) :
    (r.map (fun p => (p.1, fillCell p.2))).map Prod.fst = r.map Prod.fst := by
  induction r with
  | nil => rfl
  | cons p t ih => simp only [List.map_cons, ih]

/-! ### Column-level lemmas for the relation operations -/

theorem zipWith_left {α β : Type} (vs : List α) (rs : List β)
    (h : rs.length = vs.length) : List.zipWith (fun v _ => v) vs rs = vs := by
  induction vs generalizing rs with
  | nil => rfl
  | cons v tv ih =>
    cases rs with
    | nil => simp at h
    | cons r tr =>
      simp only [List.zipWith_cons_cons, List.cons.injEq, true_and]
      exact ih tr (by simpa using h)

theorem zipWith_right {α β γ : Type} (f : β → γ) (vs : List α) (rs : List β)
    (h : rs.length = vs.length) : List.zipWith (fun _ r => f r) vs rs = rs.map f := by
  induction vs generalizing rs with
  | nil => cases rs with
    | nil => rfl
    | cons r tr => simp at h
  | cons v tv ih =>
    cases rs with
    | nil => simp at h
    | cons r tr =>
      simp only [List.zipWith_cons_cons, List.map_cons, List.cons.injEq, true_and]
      exact ih tr (by simpa using h)

theorem mem_zipWith {α β γ : Type} {f : α → β → γ} {as : List α} {bs : List β} {c : γ}
    (h : c ∈ List.zipWith f as bs) : ∃ a b, a ∈ as ∧ b ∈ bs ∧ c = f a b := by
  induction as generalizing bs with
  | nil => simp at h
  | cons a ta ih =>
    cases bs with
    | nil => simp at h
    | cons b tb =>
      rw [List.zipWith_cons_cons] at h
      rcases List.mem_cons.mp h with h | h
      · exact ⟨a, b, by simp, by simp, h⟩
      · obtain ⟨x, y, hx, hy, hc⟩ := ih h
        exact ⟨x, y, by simp [hx], by simp [hy], hc⟩

theorem rows_length_setCol {n : String} {vals : List Cell} {R : Relation}
    (h : vals.length = R.rows.length) : (setCol n vals R).rows.length = R.rows.length := by
  simp [setCol, List.length_zipWith, h]

theorem getColCells_length (R : Relation) (n : String) :
    (getColCells R n).length = R.rows.length := by
  simp [getColCells]

theorem map_zipWith_cells {α β : Type} (g : β → α) (f : Cell → Row → β)
    (vs : List Cell) (rs : List Row) :
    (List.zipWith f vs rs).map g = List.zipWith (fun v r => g (f v r)) vs rs := by
  induction vs generalizing rs with
  | nil => rfl
  | cons v tv ih =>
    cases rs with
    | nil => rfl
    | cons r tr => simp only [List.zipWith_cons_cons, List.map_cons, ih]

theorem getColCells_setCol_self {n : String} {vals : List Cell} {R : Relation}
    (h : vals.length = R.rows.length) : getColCells (setCol n vals R) n = vals := by
  unfold getColCells setCol
  simp only
  rw [map_zipWith_cells]
  have : (fun (v : Cell) (r : Row) => rowCell (rowSet n v r) n) = (fun v _ => v) := by
    funext v r
    exact rowCell_rowSet_self n v r
  rw [this]
  exact zipWith_left vals R.rows h.symm

theorem getColCells_setCol_other {m n : String} (hmn : m ≠ n) {vals : List Cell}
    {R : Relation} (h : vals.length = R.rows.length) :
    getColCells (setCol n vals R) m = getColCells R m := by
  unfold getColCells setCol
  simp only
  rw [map_zipWith_cells]
  have : (fun (v : Cell) (r : Row) => rowCell (rowSet n v r) m) =
      (fun (_ : Cell) (r : Row) => rowCell r m) := by
    funext v r
    exact rowCell_rowSet_other hmn v r
  rw [this]
  exact zipWith_right _ vals R.rows h.symm

theorem mem_cols_setCol_self (n : String) (vals : List Cell) (R : Relation) :
    n ∈ (setCol n vals R).cols := by
  unfold setCol
  by_cases h : n ∈ R.cols <;> simp [h]

theorem mem_cols_setCol_of_mem {m n : String} {R : Relation} (h : m ∈ R.cols)
    (vals : List Cell) : m ∈ (setCol n vals R).cols := by
  unfold setCol
  by_cases hc : n ∈ R.cols <;> simp [hc, h]

theorem mem_cols_of_mem_setCol {m n : String} {vals : List Cell} {R : Relation}
    (h : m ∈ (setCol n vals R).cols) : m = n ∨ m ∈ R.cols := by
  unfold setCol at h
  by_cases hc : n ∈ R.cols
  · simp only [hc, if_pos] at h
    right
    simpa [hc] using h
  · simp only [hc] at h
    have := by simpa [hc] using h
    tauto

theorem getColCells_renameCol_other {old new n : String} (hold : old ≠ n)
    (hnew : new ≠ n) (R : Relation) :
    getColCells (renameCol old new R) n = getColCells R n := by
  unfold getColCells renameCol
  simp only [List.map_map]
  apply List.map_congr_left
  intro r hr
  clear hr
  simp only [Function.comp]
  unfold rowCell
  congr 1
  induction r with
  | nil => rfl
  | cons p t ih =>
    obtain ⟨k, w⟩ := p
    simp only [List.map_cons, List.lookup_cons]
    by_cases hk : k = old
    · have hb1 : (n == new) = false := by simp [Ne.symm hnew]
      have hb2 : (n == k) = false := by simp [hk, Ne.symm hold]
      rw [if_pos hk, hb1, hb2]
      exact ih
    · rw [if_neg hk]
      cases hb : (n == k) with
      | true => rfl
      | false => exact ih

theorem mem_cols_renameCol_of_mem {m old new : String} {R : Relation}
    (h : m ∈ R.cols) (hne : m ≠ old) : m ∈ (renameCol old new R).cols := by
  unfold renameCol
  simp only [List.mem_map]
  exact ⟨m, h, by simp [hne]⟩

theorem mem_cols_of_mem_renameCol {m old new : String} {R : Relation}
    (h : m ∈ (renameCol old new R).cols) : m = new ∨ m ∈ R.cols := by
  unfold renameCol at h
  simp only [List.mem_map] at h
  obtain ⟨c, hc, he⟩ := h
  by_cases hco : c = old
  · rw [if_pos hco] at he
    exact Or.inl he.symm
  · rw [if_neg hco] at he
    exact Or.inr (he ▸ hc)

theorem rows_length_renameCol (old new : String) (R : Relation) :
    (renameCol old new R).rows.length = R.rows.length := by
  simp [renameCol]

theorem not_mem_cols_dropCol (n : String) (R : Relation) :
    n ∉ (dropCol n R).cols := by
  unfold dropCol
  intro h
  simp only [List.mem_filter] at h
  exact absurd h.2 (by simp)

theorem mem_cols_dropCol_of_mem {m n : String} {R : Relation} (h : m ∈ R.cols)
    (hne : m ≠ n) : m ∈ (dropCol n R).cols := by
  unfold dropCol
  simp only [List.mem_filter]
  exact ⟨h, by simp [hne]⟩

theorem lookup_filter_ne {m n : String} (hmn : m ≠ n) (r : Row) :
    (r.filter (fun p => p.1 ≠ n)).lookup m = r.lookup m := by
  induction r with
  | nil => rfl
  | cons p t ih =>
    obtain ⟨k, w⟩ := p
    rw [List.filter_cons]
    by_cases hk : k = n
    · rw [if_neg (by simp [hk]), List.lookup_cons]
      have hb : (m == k) = false := by simp [hk, hmn]
      rw [hb]
      exact ih
    · rw [if_pos (by simp [hk]), List.lookup_cons, List.lookup_cons]
      cases hb : (m == k) with
      | true => rfl
      | false => exact ih

theorem getColCells_dropCol_other {m n : String} (hmn : m ≠ n) (R : Relation) :
    getColCells (dropCol n R) m = getColCells R m := by
  unfold getColCells dropCol
  simp only [List.map_map]
  apply List.map_congr_left
  intro r hr
  clear hr
  simp only [Function.comp]
  unfold rowCell
  rw [lookup_filter_ne hmn]

theorem cols_fillnaZero (R : Relation) : (fillnaZero R).cols = R.cols := rfl

theorem rows_length_fillnaZero (R : Relation) : (fillnaZero R).rows.length = R.rows.length := by
  simp [fillnaZero]

theorem rowCell_fillnaZero_of_isSome {r : Row} {n : String}
    (h : (r.lookup n).isSome = true) :
    rowCell (r.map (fun p => (p.1, fillCell p.2))) n = fillCell (rowCell r n) := by
  unfold rowCell
  rw [lookup_fillRow]
  cases hl : r.lookup n with
  | none => rw [hl] at h; simp at h
  | some v => rfl

/-! ### Match uniqueness, dedup and merge-shape lemmas -/

/-- The non-missing cells of a list are pairwise distinct (uniqueness of a
key column, NaN keys exempt since they never match). -/
theorem cellMatch_true_iff {a b : Cell} : cellMatch a b = true ↔ b = a := by
  unfold cellMatch
  constructor
  · intro h
    exact (beq_iff_eq.mp h).symm
  · intro h
    exact beq_iff_eq.mpr h.symm

theorem matches_le_one {rows : List Row} {key : String}
    (h : (rows.map (fun r => rowCell r key)).Nodup) (k : Cell) :
    (rows.filter (fun rr => cellMatch k (rowCell rr key))).length ≤ 1 := by
  induction rows with
  | nil => simp
  | cons r t ih =>
    simp only [List.map_cons, List.nodup_cons] at h
    rw [List.filter_cons]
    by_cases hp : cellMatch k (rowCell r key) = true
    · rw [if_pos hp]
      have hrk : rowCell r key = k := cellMatch_true_iff.mp hp
      have htail : t.filter (fun rr => cellMatch k (rowCell rr key)) = [] := by
        rw [List.filter_eq_nil_iff]
        intro rr hrr hmatch
        have hrrk : rowCell rr key = k := cellMatch_true_iff.mp hmatch
        exact h.1 (List.mem_map.mpr ⟨rr, hrr, by rw [hrrk, hrk]⟩)
      rw [htail]
      simp
    · rw [if_neg hp]
      exact ih h.2

theorem find?_eq_head_filter {α : Type} (p : α → Bool) (l : List α) :
    l.find? p = (l.filter p).head? := by
  induction l with
  | nil => rfl
  | cons a t ih =>
    rw [List.find?_cons, List.filter_cons]
    cases hp : p a with
    | true => simp
    | false =>
      rw [if_neg (by simp)]
      exact ih

theorem flatMap_eq_map_of_singleton {α β : Type} {l : List α} {f : α → List β} {g : α → β}
    (h : ∀ a ∈ l, f a = [g a]) : l.flatMap f = l.map g := by
  induction l with
  | nil => rfl
  | cons a t ih =>
    rw [List.flatMap_cons, h a (by simp), ih (fun x hx => h x (by simp [hx]))]
    rfl

theorem mergeAux_rows_eq {L R : Relation} {lkey rkey sufL sufR : String} {dropRight : Bool}
    (h : (R.rows.map (fun r => rowCell r rkey)).Nodup) :
    (mergeAux L R lkey rkey sufL sufR dropRight).rows =
      L.rows.map (fun lr => rowRename (mergeFL L R lkey sufL dropRight) lr ++
        mergeRight L R lkey rkey sufR dropRight lr) := by
  unfold mergeAux
  simp only
  apply flatMap_eq_map_of_singleton
  intro lr _
  have hle := matches_le_one h (rowCell lr lkey)
  cases hms : mergeMatches R rkey (rowCell lr lkey) with
  | nil =>
    unfold mergeRight
    rw [hms]
    simp
  | cons rr tl =>
    have htl : tl = [] := by
      unfold mergeMatches at hms
      rw [hms] at hle
      simp only [List.length_cons] at hle
      exact List.eq_nil_of_length_eq_zero (by omega)
    subst htl
    unfold mergeRight
    rw [hms]
    simp

theorem mergeAux_length {L R : Relation} {lkey rkey sufL sufR : String} {dropRight : Bool}
    (h : (R.rows.map (fun r => rowCell r rkey)).Nodup) :
    (mergeAux L R lkey rkey sufL sufR dropRight).rows.length = L.rows.length := by
  rw [mergeAux_rows_eq h]
  simp

theorem fsts_mergePad (L R : Relation) (lkey rkey sufR : String) (dropRight : Bool) :
    (mergePad L R lkey rkey sufR dropRight).map Prod.fst =
      mergeRCols L R lkey rkey sufR dropRight := by
  unfold mergePad
  rw [List.map_map]
  rw [show (Prod.fst ∘ fun c : String => (c, Cell.na)) = id from rfl, List.map_id]

theorem fsts_mergeProcR {R : Relation} {rr : Row} (hWF : WFRel R) (hrr : rr ∈ R.rows)
    (L : Relation) (lkey rkey sufR : String) (dropRight : Bool) :
    (mergeProcR (mergeFR L R lkey sufR dropRight) rkey dropRight rr).map Prod.fst =
      mergeRCols L R lkey rkey sufR dropRight := by
  unfold mergeProcR mergeRCols mergeKeptR
  rw [fsts_rowRename]
  cases dropRight with
  | true =>
    rw [if_pos rfl, if_pos rfl, fsts_filter_ne, hWF rr hrr]
  | false =>
    rw [if_neg (by simp), if_neg (by simp), hWF rr hrr]

theorem mem_of_mem_mergeMatches {R : Relation} {rkey : String} {k : Cell} {rr : Row}
    (h : rr ∈ mergeMatches R rkey k) : rr ∈ R.rows := by
  unfold mergeMatches at h
  exact (List.mem_filter.mp h).1

theorem fsts_mergeRight {L R : Relation} {lkey rkey sufR : String} {dropRight : Bool}
    (hWF : WFRel R) (lr : Row) :
    (mergeRight L R lkey rkey sufR dropRight lr).map Prod.fst =
      mergeRCols L R lkey rkey sufR dropRight := by
  unfold mergeRight
  cases hh : (mergeMatches R rkey (rowCell lr lkey)).head? with
  | none => exact fsts_mergePad L R lkey rkey sufR dropRight
  | some rr =>
    have hrr : rr ∈ R.rows := mem_of_mem_mergeMatches (List.mem_of_mem_head? hh)
    exact fsts_mergeProcR hWF hrr L lkey rkey sufR dropRight

theorem mergeAux_mem_rows {L R : Relation} {lkey rkey sufL sufR : String} {dropRight : Bool}
    (hWF : WFRel R) {row : Row}
    (h : row ∈ (mergeAux L R lkey rkey sufL sufR dropRight).rows) :
    ∃ lr ∈ L.rows, ∃ t : Row,
      row = rowRename (mergeFL L R lkey sufL dropRight) lr ++ t ∧
      t.map Prod.fst = mergeRCols L R lkey rkey sufR dropRight := by
  unfold mergeAux at h
  simp only [List.mem_flatMap] at h
  obtain ⟨lr, hlr, hrow⟩ := h
  by_cases he : (mergeMatches R rkey (rowCell lr lkey)).isEmpty = true
  · rw [if_pos he] at hrow
    simp only [List.mem_singleton] at hrow
    exact ⟨lr, hlr, mergePad L R lkey rkey sufR dropRight, hrow,
      fsts_mergePad L R lkey rkey sufR dropRight⟩
  · rw [if_neg he] at hrow
    simp only [List.mem_map] at hrow
    obtain ⟨rr, hrr, hrow⟩ := hrow
    exact ⟨lr, hlr, _, hrow.symm,
      fsts_mergeProcR hWF (mem_of_mem_mergeMatches hrr) L lkey rkey sufR dropRight⟩

theorem rowCell_append_of_fsts {lr t : Row} {n : String} {fL : String → String}
    (hf : ∀ m, fL m = n ↔ m = n) (ht : t.map Prod.fst = some_cols)
    (hnr : n ∉ some_cols) :
    rowCell (rowRename fL lr ++ t) n = rowCell lr n := by
  unfold rowCell
  cases hl : (rowRename fL lr).lookup n with
  | some v =>
    rw [lookup_append_some hl]
    rw [lookup_rowRename hf] at hl
    rw [hl]
  | none =>
    rw [lookup_append_none hl]
    rw [lookup_rowRename hf] at hl
    rw [hl]
    rw [lookup_eq_none_of_not_mem (ht ▸ hnr)]

/-! ### Suffix reasoning for merge collision renames -/

theorem append_ne_str {suf key : String}
    (h : key.data.drop (key.data.length - suf.data.length) ≠ suf.data) :
    ∀ m : String, m ++ suf ≠ key := by
  intro m he
  have hd : m.data ++ suf.data = key.data := by
    rw [← String.data_append, he]
  have hl : m.data.length + suf.data.length = key.data.length := by
    rw [← hd]; simp
  have h2 : key.data.drop m.data.length = suf.data := by
    rw [← hd, List.drop_left]
  apply h
  have hm2 : key.data.length - suf.data.length = m.data.length := by omega
  rw [hm2]
  exact h2

theorem sufRename_hf {ov : List String} {suf n : String}
    (hsuf : ∀ x : String, x ++ suf ≠ n) (hn : n ∉ ov) :
    ∀ m, sufRename ov suf m = n ↔ m = n := by
  intro m
  unfold sufRename
  by_cases hm : m ∈ ov
  · rw [if_pos hm]
    constructor
    · intro hc; exact absurd hc (hsuf m)
    · intro hc; subst hc; exact absurd hm hn
  · rw [if_neg hm]

theorem mem_map_sufRename_iff {l ov : List String} {suf n : String}
    (hsuf : ∀ x : String, x ++ suf ≠ n) :
    n ∈ l.map (sufRename ov suf) ↔ n ∈ l ∧ n ∉ ov := by
  simp only [List.mem_map]
  constructor
  · rintro ⟨m, hm, he⟩
    unfold sufRename at he
    by_cases hmo : m ∈ ov
    · rw [if_pos hmo] at he
      exact absurd he (hsuf m)
    · rw [if_neg hmo] at he
      subst he
      exact ⟨hm, hmo⟩
  · rintro ⟨h1, h2⟩
    exact ⟨n, h1, by unfold sufRename; rw [if_neg h2]⟩

theorem mem_mergeOv_iff {L R : Relation} {excl : List String} {m : String} :
    m ∈ mergeOv L R excl ↔ m ∈ L.cols ∧ m ∈ R.cols ∧ m ∉ excl := by
  unfold mergeOv
  simp [List.mem_filter, and_assoc]

theorem key_not_mem_mergeOv (L R : Relation) (lkey : String) :
    lkey ∉ mergeOv L R (mergeExcl true lkey) := by
  intro h
  obtain ⟨_, _, h3⟩ := mem_mergeOv_iff.mp h
  exact h3 (by simp [mergeExcl])

/-! ### Column values through a merge -/

theorem getColCells_mergeAux_left {L R : Relation} {lkey rkey sufL sufR : String}
    {dropRight : Bool} {n : String}
    (hnod : (R.rows.map (fun r => rowCell r rkey)).Nodup)
    (hWF : WFRel R)
    (hf : ∀ m, mergeFL L R lkey sufL dropRight m = n ↔ m = n)
    (hnr : n ∉ mergeRCols L R lkey rkey sufR dropRight) :
    getColCells (mergeAux L R lkey rkey sufL sufR dropRight) n = getColCells L n := by
  unfold getColCells
  rw [mergeAux_rows_eq hnod, List.map_map]
  apply List.map_congr_left
  intro lr _
  simp only [Function.comp]
  exact rowCell_append_of_fsts hf (fsts_mergeRight hWF lr) hnr

theorem mem_cols_mergeAux_left {L R : Relation} {lkey rkey sufL sufR : String}
    {dropRight : Bool} {n : String} (h : n ∈ L.cols)
    (hov : n ∉ mergeOv L R (mergeExcl dropRight lkey)) :
    n ∈ (mergeAux L R lkey rkey sufL sufR dropRight).cols := by
  unfold mergeAux
  simp only
  apply List.mem_append_left
  exact List.mem_map.mpr ⟨n, h, by unfold mergeFL sufRename; rw [if_neg hov]⟩

theorem mem_cols_of_mem_mergeAux {L R : Relation} {lkey rkey sufL sufR : String}
    {dropRight : Bool} {n : String}
    (hsL : ∀ x : String, x ++ sufL ≠ n) (hsR : ∀ x : String, x ++ sufR ≠ n)
    (h : n ∈ (mergeAux L R lkey rkey sufL sufR dropRight).cols) :
    (n ∈ L.cols ∧ n ∉ mergeOv L R (mergeExcl dropRight lkey)) ∨
      (n ∈ mergeKeptR R rkey dropRight ∧ n ∉ mergeOv L R (mergeExcl dropRight lkey)) := by
  unfold mergeAux at h
  simp only at h
  rcases List.mem_append.mp h with h | h
  · left
    exact (mem_map_sufRename_iff hsL).mp h
  · right
    unfold mergeRCols at h
    exact (mem_map_sufRename_iff hsR).mp h

/-! ### Deduplication keeps the first occurrence -/

theorem dedupGo_filter_aux (key : String) (k : Cell) :
    ∀ (l : List Row) (seen : List Cell),
      (k ∈ seen → (dedupGo key seen l).filter (fun r => rowCell r key == k) = []) ∧
      (k ∉ seen → (dedupGo key seen l).filter (fun r => rowCell r key == k) =
        (l.filter (fun r => rowCell r key == k)).take 1) := by
  intro l
  induction l with
  | nil => intro seen; exact ⟨fun _ => rfl, fun _ => rfl⟩
  | cons r t ih =>
    intro seen
    constructor
    · intro hk
      rw [dedupGo]
      by_cases hm : rowCell r key ∈ seen
      · rw [if_pos hm]
        exact (ih seen).1 hk
      · rw [if_neg hm, List.filter_cons]
        have hrk : (rowCell r key == k) = false := by
          simp only [beq_eq_false_iff_ne]
          intro he
          exact hm (he ▸ hk)
        rw [if_neg (by simp [hrk])]
        exact (ih (rowCell r key :: seen)).1 (by simp [hk])
    · intro hk
      rw [dedupGo]
      by_cases hm : rowCell r key ∈ seen
      · rw [if_pos hm]
        have hrk : (rowCell r key == k) = false := by
          simp only [beq_eq_false_iff_ne]
          intro he
          exact hk (he ▸ hm)
        rw [List.filter_cons, if_neg (by simp [hrk])]
        exact (ih seen).2 hk
      · rw [if_neg hm, List.filter_cons, List.filter_cons]
        by_cases hrk : rowCell r key = k
        · rw [if_pos (by simp [hrk]), if_pos (by simp [hrk])]
          have hnil : (dedupGo key (rowCell r key :: seen) t).filter
              (fun r2 => rowCell r2 key == k) = [] :=
            (ih (rowCell r key :: seen)).1 (by simp [hrk])
          rw [hnil]
          simp
        · rw [if_neg (by simp [hrk]), if_neg (by simp [hrk])]
          refine (ih (rowCell r key :: seen)).2 ?_
          intro hc
          rcases List.mem_cons.mp hc with hc | hc
          · exact hrk hc.symm
          · exact hk hc

theorem mergeMatches_dedupFirst (R : Relation) (key : String) (k : Cell) :
    mergeMatches (dedupFirst R key) key k = (mergeMatches R key k).take 1 := by
  have hcongr : ∀ (l : List Row), l.filter (fun rr => cellMatch k (rowCell rr key)) =
      l.filter (fun rr => rowCell rr key == k) := by
    intro l
    apply List.filter_congr
    intro r _
    by_cases hc : rowCell r key = k
    · simp [cellMatch, hc]
    · have h1 : (k == rowCell r key) = false := by
        simp only [beq_eq_false_iff_ne]
        exact fun he => hc he.symm
      have h2 : (rowCell r key == k) = false := by
        simp only [beq_eq_false_iff_ne]
        exact hc
      simp [cellMatch, h1, h2]
  unfold mergeMatches
  unfold dedupFirst
  simp only
  rw [hcongr, hcongr]
  exact (dedupGo_filter_aux key k R.rows []).2 (List.not_mem_nil k)

theorem dedupGo_keys (key : String) :
    ∀ (l : List Row) (seen : List Cell),
      ((dedupGo key seen l).map (fun r => rowCell r key)).Nodup ∧
      ∀ r ∈ dedupGo key seen l, rowCell r key ∉ seen := by
  intro l
  induction l with
  | nil =>
    intro seen
    constructor <;> simp [dedupGo]
  | cons r t ih =>
    intro seen
    by_cases hm : rowCell r key ∈ seen
    · rw [dedupGo, if_pos hm]
      exact ih seen
    · rw [dedupGo, if_neg hm]
      constructor
      · simp only [List.map_cons, List.nodup_cons]
        constructor
        · intro hmem
          obtain ⟨r2, hr2, he⟩ := List.mem_map.mp hmem
          exact (ih (rowCell r key :: seen)).2 r2 hr2 (he ▸ List.mem_cons_self _ _)
        · exact (ih _).1
      · intro r2 hr2
        rcases List.mem_cons.mp hr2 with h | h
        · subst h; exact hm
        · exact fun hs => (ih _).2 r2 h (List.mem_cons_of_mem _ hs)

theorem nodup_dedupFirst (R : Relation) (key : String) :
    ((dedupFirst R key).rows.map (fun r => rowCell r key)).Nodup :=
  (dedupGo_keys key R.rows []).1

/-! ### Well-formedness is preserved by every pipeline operation -/

theorem WF_clean {R : Relation} (h : WFRel R) :
    WFRel (clean_and_standardize_columns R) := by
  intro r hr
  simp only [clean_and_standardize_columns, List.mem_map] at hr
  obtain ⟨r0, hr0, he⟩ := hr
  subst he
  show (rowRename normalizeName r0).map Prod.fst = _
  rw [fsts_rowRename, h r0 hr0]
  rfl

theorem WF_renameCol {R : Relation} (old new : String) (h : WFRel R) :
    WFRel (renameCol old new R) := by
  intro r hr
  simp only [renameCol, List.mem_map] at hr
  obtain ⟨r0, hr0, he⟩ := hr
  subst he
  show (rowRename (fun c => if c = old then new else c) r0).map Prod.fst = _
  rw [fsts_rowRename, h r0 hr0]
  rfl

theorem WF_setCol {R : Relation} (n : String) (vals : List Cell) (h : WFRel R) :
    WFRel (setCol n vals R) := by
  intro r hr
  obtain ⟨v, r0, hv, hr0, he⟩ := mem_zipWith hr
  subst he
  rw [fsts_rowSet]
  have hcols := h r0 hr0
  by_cases hq : (r0.lookup n).isSome = true
  · rw [if_pos hq]
    have hp : n ∈ R.cols := hcols ▸ lookup_isSome_iff_mem.mp hq
    rw [hcols]
    simp [setCol, hp]
  · rw [if_neg hq]
    have hp : n ∉ R.cols := fun hc => hq (lookup_isSome_iff_mem.mpr (hcols ▸ hc))
    rw [hcols]
    simp [setCol, hp]

theorem WF_dropCol {R : Relation} (n : String) (h : WFRel R) : WFRel (dropCol n R) := by
  intro r hr
  simp only [dropCol, List.mem_map] at hr
  obtain ⟨r0, hr0, he⟩ := hr
  subst he
  rw [fsts_filter_ne, h r0 hr0]
  rfl

theorem WF_selectCols (names : List String) (R : Relation) : WFRel (selectCols names R) := by
  intro r hr
  simp only [selectCols, List.mem_map] at hr
  obtain ⟨r0, hr0, he⟩ := hr
  subst he
  rw [List.map_map]
  show names.map (Prod.fst ∘ fun n => (n, rowCell r0 n)) = _
  rw [show (Prod.fst ∘ fun n : String => (n, rowCell r0 n)) = id from rfl, List.map_id]
  rfl

theorem dedupGo_subset (key : String) :
    ∀ (l : List Row) (seen : List Cell), ∀ r ∈ dedupGo key seen l, r ∈ l := by
  intro l
  induction l with
  | nil => intro seen r hr; rw [dedupGo] at hr; exact absurd hr (List.not_mem_nil r)
  | cons r0 t ih =>
    intro seen r hr
    rw [dedupGo] at hr
    by_cases hm : rowCell r0 key ∈ seen
    · rw [if_pos hm] at hr
      exact List.mem_cons_of_mem _ (ih seen r hr)
    · rw [if_neg hm] at hr
      rcases List.mem_cons.mp hr with h | h
      · exact h ▸ List.mem_cons_self _ _
      · exact List.mem_cons_of_mem _ (ih _ r h)

theorem WF_dedupFirst {R : Relation} (key : String) (h : WFRel R) :
    WFRel (dedupFirst R key) := by
  intro r hr
  exact h r (dedupGo_subset key R.rows [] r hr)

theorem WF_fillnaZero {R : Relation} (h : WFRel R) : WFRel (fillnaZero R) := by
  intro r hr
  simp only [fillnaZero, List.mem_map] at hr
  obtain ⟨r0, hr0, he⟩ := hr
  subst he
  rw [fsts_fillRow, h r0 hr0]
  rfl

theorem WF_mergeAux {L R : Relation} {lkey rkey sufL sufR : String} {dropRight : Bool}
    (hL : WFRel L) (hR : WFRel R) :
    WFRel (mergeAux L R lkey rkey sufL sufR dropRight) := by
  intro row hrow
  obtain ⟨lr, hlr, t, he, ht⟩ := mergeAux_mem_rows hR hrow
  subst he
  rw [List.map_append, fsts_rowRename, hL lr hlr, ht]
  rfl

theorem WF_standardize {R : Relation} (h : WFRel R) :
    WFRel (standardize_order_id R).2 := by
  unfold standardize_order_id
  cases hf : possible_id_names.find? (fun n => R.cols.contains n) with
  | some n => exact WF_renameCol n "id" h
  | none =>
    by_cases hc : R.cols.contains "id" = true
    · rw [if_pos hc]
      exact h
    · rw [if_neg hc]
      exact h

theorem WF_stageCostCol {R : Relation} (h : WFRel R) : WFRel (stageCostCol R) := by
  unfold stageCostCol
  split
  · exact WF_renameCol _ _ h
  · split
    · exact h
    · split
      · exact h
      · exact WF_renameCol _ _ h

theorem WF_stageRouteFix {R : Relation} (h : WFRel R) : WFRel (stageRouteFix R) := by
  unfold stageRouteFix
  split
  · exact WF_renameCol _ _ h
  · exact h

theorem WF_stageOrderValue {R : Relation} (h : WFRel R) : WFRel (stageOrderValue R) := by
  unfold stageOrderValue
  split
  · exact WF_setCol _ _ h
  · exact WF_setCol _ _ (WF_setCol _ _ h)

theorem WF_routesPrepared {R : Relation} (h : WFRel R) : WFRel (routesPrepared R) := by
  unfold routesPrepared
  split
  · exact WF_dropCol _ h
  · exact h

/-! ### Inversion of a successful pipeline run -/

theorem contains_true_mem {l : List String} {a : String} (h : l.contains a = true) :
    a ∈ l :=
  List.elem_iff.mp h

theorem mem_contains_true {l : List String} {a : String} (h : a ∈ l) :
    l.contains a = true :=
  List.elem_iff.mpr h

theorem fillMeanCol_ok_inv {name : String} {R R1 : Relation}
    (h : fillMeanCol name R = Except.ok R1) :
    name ∈ R.cols ∧ R1 = setCol name (imputedColumn name R) R := by
  unfold fillMeanCol at h
  split at h
  · simp at h
  next hc =>
    have hc2 : R.cols.contains name = true := by
      revert hc
      cases R.cols.contains name <;> simp
    exact ⟨contains_true_mem hc2, by injection h with h2; exact h2.symm⟩

theorem deriveMetrics_ok_inv {R0 out : Relation} (h : deriveMetrics R0 = Except.ok out) :
    ∃ R1 R2 : Relation,
      fillMeanCol "distance_km" R0 = Except.ok R1 ∧
      fillMeanCol "co2_emissions_kg_per_km" R1 = Except.ok R2 ∧
      "order_value_usd" ∈ (metricsR3 R2).cols ∧
      out = fillnaZero (metricsR4 (metricsR3 R2)) := by
  unfold deriveMetrics at h
  split at h
  · simp at h
  next R1 h1 =>
    split at h
    · simp at h
    next R2 h2 =>
      split at h
      · simp at h
      next hc =>
        have hc2 : (metricsR3 R2).cols.contains "order_value_usd" = true := by
          revert hc
          cases (metricsR3 R2).cols.contains "order_value_usd" <;> simp
        exact ⟨R1, R2, h1, h2, contains_true_mem hc2,
          by injection h with h3; exact h3.symm⟩

theorem pipeline_ok_inv {rngR rngV : ℕ → ℕ} {I : Inputs} {out : Relation}
    (h : load_and_merge_data rngR rngV I = Except.ok out) :
    ∃ Ir : Inputs, stageResolveIds (stageNormalize I) = Except.ok Ir ∧
    ∃ m1 : Relation, link1 (stageOrderValue Ir.orders) Ir.performance = Except.ok m1 ∧
    ∃ m2 : Relation, link2 rngR m1 (stageRouteFix Ir.routes) = Except.ok m2 ∧
    ∃ m4 : Relation, link3 rngV m2 Ir.fleet = Except.ok m4 ∧
    ∃ m5 : Relation, link4 m4 (stageCostCol Ir.cost) = Except.ok m5 ∧
    deriveMetrics m5 = Except.ok out := by
  unfold load_and_merge_data at h
  split at h
  · simp at h
  next Ir h1 =>
    split at h
    · simp at h
    next m1 h2 =>
      split at h
      · simp at h
      next m2 h3 =>
        split at h
        · simp at h
        next m4 h4 =>
          split at h
          · simp at h
          next m5 h5 =>
            exact ⟨Ir, h1, m1, h2, m2, h3, m4, h4, m5, h5, h⟩

/-! ### Concrete inputs used by witnesses and counterexamples -/

/-- A one-row orders relation with a numeric id. -/
def relOrders1 : Relation :=
  { cols := ["id"], rows := [[("id", Cell.num 1)]] }

/-- A one-row routes relation with route key and distance. -/
def relRoutes1 : Relation :=
  { cols := ["route_id", "distance_km"],
    rows := [[("route_id", Cell.str "R1"), ("distance_km", Cell.num 10)]] }

/-- A one-row fleet relation with vehicle type and CO2 factor. -/
def relFleet1 : Relation :=
  { cols := ["vehicle_type", "co2_emissions_kg_per_km"],
    rows := [[("vehicle_type", Cell.str "T"), ("co2_emissions_kg_per_km", Cell.num 2)]] }

/-- A one-row performance relation. -/
def relPerf1 : Relation :=
  { cols := ["id"], rows := [[("id", Cell.num 1)]] }

/-- A one-row cost relation. -/
def relCost1 : Relation :=
  { cols := ["id"], rows := [[("id", Cell.num 1)]] }

/-- A minimal well-behaved set of inputs on which the pipeline succeeds. -/
def baseInputs : Inputs :=
  { orders := relOrders1, routes := relRoutes1, fleet := relFleet1,
    performance := relPerf1, cost := relCost1 }

/-- The constant random source used in witnesses. -/
def rng0 : ℕ → ℕ := fun _ => 0

/-! ## Claim theorems -/

/-- C7: the Column Normalizer is idempotent: normalizing the column names
twice yields the same relation as normalizing once, the row data (the cell
values) is unchanged, and the operation is total (it is a plain function,
never an `Except`). -/
theorem C7_normalizer_idempotent (R : Relation) :
    clean_and_standardize_columns (clean_and_standardize_columns R) =
      clean_and_standardize_columns R ∧
    (clean_and_standardize_columns R).rows.map (List.map Prod.snd) =
      R.rows.map (List.map Prod.snd) ∧
    (clean_and_standardize_columns R).rows.length = R.rows.length := by
  refine ⟨?_, ?_, by simp [clean_and_standardize_columns]⟩
  · unfold clean_and_standardize_columns
    simp only [Relation.mk.injEq]
    exact ⟨map_normalizeName_idem R.cols, rows_normalize_idem R.rows⟩
  · unfold clean_and_standardize_columns
    simp only [List.map_map]
    apply List.map_congr_left
    intro r _
    simp only [Function.comp]
    exact row_data_preserved r

/-- A relation holding both the canonical `id` column and the alias
`order_id`. -/
def relIdAndAlias : Relation :=
  { cols := ["id", "order_id"], rows := [[("id", Cell.num 1), ("order_id", Cell.num 2)]] }

/-- C3 counterexample: on a relation that already has the canonical `id`
column, the Key Resolver does NOT leave the columns unchanged when a
candidate alias is also present: the alias scan runs first, so `order_id`
is renamed to `id` as well, changing the column list (to a duplicated
`id`).  This falsifies the claim as stated. -/
theorem C3_counterexample :
    (standardize_order_id relIdAndAlias).1 = true ∧
    (standardize_order_id relIdAndAlias).2.cols ≠ relIdAndAlias.cols ∧
    (standardize_order_id relIdAndAlias).2.cols = ["id", "id"] := by
  refine ⟨rfl, by decide, by decide⟩

/-- C3 amended: the Key Resolver scans the candidate aliases first.  When
the canonical `id` is present and no candidate alias is, it reports
success with no rename; when neither is present it reports failure with
no rename; but when a candidate alias is present it is renamed to `id`
even if `id` already exists. -/
theorem C3_keyresolver_amended (R : Relation) :
    ("id" ∈ R.cols → (∀ n ∈ possible_id_names, n ∉ R.cols) →
      standardize_order_id R = (true, R)) ∧
    ("id" ∉ R.cols → (∀ n ∈ possible_id_names, n ∉ R.cols) →
      standardize_order_id R = (false, R)) ∧
    (∀ n, possible_id_names.find? (fun m => R.cols.contains m) = some n →
      standardize_order_id R = (true, renameCol n "id" R)) := by
  refine ⟨?_, ?_, ?_⟩
  · intro hid hno
    have hf : possible_id_names.find? (fun n => R.cols.contains n) = none :=
      List.find?_eq_none.mpr (fun n hn => by simp [hno n hn])
    unfold standardize_order_id
    rw [hf, if_pos (mem_contains_true hid)]
  · intro hid hno
    have hf : possible_id_names.find? (fun n => R.cols.contains n) = none :=
      List.find?_eq_none.mpr (fun n hn => by simp [hno n hn])
    unfold standardize_order_id
    rw [hf, if_neg (fun hc => hid (contains_true_mem hc))]
  · intro n hn
    unfold standardize_order_id
    rw [hn]

/-- C3 witness: the amended resolver contract evaluated at concrete
relations for each of its three cases. -/
theorem C3_keyresolver_amended_witness :
    standardize_order_id { cols := ["id", "x"], rows := [] } =
      (true, { cols := ["id", "x"], rows := [] }) ∧
    standardize_order_id { cols := ["y"], rows := [] } =
      (false, { cols := ["y"], rows := [] }) ∧
    standardize_order_id relIdAndAlias = (true, renameCol "order_id" "id" relIdAndAlias) :=
  ⟨(C3_keyresolver_amended _).1 (by decide) (by decide),
   (C3_keyresolver_amended _).2.1 (by decide) (by decide),
   (C3_keyresolver_amended _).2.2 "order_id" (by decide)⟩

/-- Inputs whose orders relation carries no order id under any name. -/
def inputsNoOrdersId : Inputs :=
  { baseInputs with orders := { cols := ["foo"], rows := [] } }

/-- Inputs where all order ids resolve but the routes relation has no
route-id column (and the merged relation has none either). -/
def inputsRoutesNoKey : Inputs :=
  { baseInputs with routes := { cols := ["distance_km"],
                                rows := [[("distance_km", Cell.num 10)]] } }

/-- C8 amended: if order-id resolution fails on any of the orders, cost
or performance relations, the pipeline aborts with the fatal key error
and produces no output relation.  (The claim that no other anomaly aborts
is refuted separately: see the counterexample.) -/
theorem C8_resolution_failure_fatal (I : Inputs) (rngR rngV : ℕ → ℕ)
    (h : (standardize_order_id (clean_and_standardize_columns I.orders)).1 = false ∨
         (standardize_order_id (clean_and_standardize_columns I.cost)).1 = false ∨
         (standardize_order_id (clean_and_standardize_columns I.performance)).1 = false) :
    load_and_merge_data rngR rngV I = Except.error keyErrorMsg := by
  unfold load_and_merge_data stageResolveIds stageNormalize
  rcases h with h | h | h
  · simp [h]
  · by_cases h1 : (standardize_order_id (clean_and_standardize_columns I.orders)).1 = true
    · simp [h1, h]
    · simp [Bool.of_not_eq_true h1]
  · by_cases h1 : (standardize_order_id (clean_and_standardize_columns I.orders)).1 = true
    · by_cases h2 : (standardize_order_id (clean_and_standardize_columns I.cost)).1 = true
      · simp [h1, h2, h]
      · simp [h1, Bool.of_not_eq_true h2]
    · simp [Bool.of_not_eq_true h1]

/-- C8 witness: the fatal abort evaluated on a concrete input whose
orders relation has no id under any alias. -/
theorem C8_resolution_failure_fatal_witness :
    load_and_merge_data rng0 rng0 inputsNoOrdersId = Except.error keyErrorMsg :=
  C8_resolution_failure_fatal inputsNoOrdersId rng0 rng0 (Or.inl (by decide))

/-- C8 counterexample: an input on which order-id resolution succeeds on
all three keyed relations, yet the pipeline still aborts fatally (the
routes relation lacks a route-id column while the merged relation has no
route link), refuting the part of the claim that says no anomaly other
than order-id resolution failure aborts the pipeline. -/
theorem C8_counterexample :
    (standardize_order_id (clean_and_standardize_columns inputsRoutesNoKey.orders)).1 = true ∧
    (standardize_order_id (clean_and_standardize_columns inputsRoutesNoKey.cost)).1 = true ∧
    (standardize_order_id (clean_and_standardize_columns inputsRoutesNoKey.performance)).1 = true ∧
    load_and_merge_data rng0 rng0 inputsRoutesNoKey = Except.error "KeyError: route_id" := by
  refine ⟨by decide, by decide, by decide, by decide⟩

/-! ### Shape of the Metric Derivation output -/

theorem fillCell_ne_na (c : Cell) : fillCell c ≠ Cell.na := by
  unfold fillCell
  split
  · simp
  next h => exact h

theorem cellMul_cases (a b : Cell) :
    cellMul a b = Cell.na ∨ ∃ q : ℚ, cellMul a b = Cell.num q := by
  cases a <;> cases b <;> simp [cellMul]

theorem cellDiv_cases (a b : Cell) :
    cellDiv a b = Cell.na ∨ ∃ q : ℚ, cellDiv a b = Cell.num q := by
  cases a with
  | num qa =>
    cases b with
    | num qb =>
      show (if qb = 0 then Cell.na else Cell.num (qdiv qa qb)) = Cell.na ∨
        ∃ q, (if qb = 0 then Cell.na else Cell.num (qdiv qa qb)) = Cell.num q
      by_cases hb : qb = 0
      · rw [if_pos hb]
        simp
      · rw [if_neg hb]
        simp
    | str s => simp [cellDiv]
    | na => simp [cellDiv]
  | str s => cases b <;> simp [cellDiv]
  | na => cases b <;> simp [cellDiv]

theorem fillCell_num_of_cases {c : Cell}
    (h : c = Cell.na ∨ ∃ q : ℚ, c = Cell.num q) : ∃ q : ℚ, fillCell c = Cell.num q := by
  rcases h with h | ⟨q, h⟩
  · subst h
    exact ⟨0, rfl⟩
  · subst h
    exact ⟨q, rfl⟩

theorem metricsR4_rows_mem {R3 : Relation} {r4 : Row} (h : r4 ∈ (metricsR4 R3).rows) :
    ∃ cv r3, cv ∈ ccpvColumn R3 ∧ r3 ∈ R3.rows ∧
      r4 = rowSet "carbon_cost_per_value" cv r3 :=
  mem_zipWith h

theorem metricsR3_rows_mem {R2 : Relation} {r3 : Row} (h : r3 ∈ (metricsR3 R2).rows) :
    ∃ tv r2, tv ∈ totalColumn R2 ∧ r2 ∈ R2.rows ∧
      r3 = rowSet "total_co2_kg" tv r2 :=
  mem_zipWith h

theorem mem_totalColumn_cases {R2 : Relation} {tv : Cell} (h : tv ∈ totalColumn R2) :
    tv = Cell.na ∨ ∃ q : ℚ, tv = Cell.num q := by
  unfold totalColumn at h
  obtain ⟨a, b, _, _, he⟩ := mem_zipWith h
  exact he ▸ cellMul_cases a b

theorem mem_ccpvColumn_num {R3 : Relation} {cv : Cell} (h : cv ∈ ccpvColumn R3) :
    ∃ q : ℚ, cv = Cell.num q := by
  unfold ccpvColumn at h
  obtain ⟨w, hw, he⟩ := List.mem_map.mp h
  obtain ⟨a, b, _, _, hwe⟩ := mem_zipWith hw
  subst he
  exact fillCell_num_of_cases (hwe ▸ cellDiv_cases a b)

/-- C2: on every input on which the pipeline succeeds, the returned
relation is fully dense (no cell of any row is missing), and in every row
the derived fields `total_co2_kg` and `carbon_cost_per_value` hold finite
numeric values (`Cell.num`, the model of a finite float; NaN and the
infinities are exactly what `Cell.na` and the `cellDiv` guard absorb). -/
theorem C2_dense_and_finite (I : Inputs) (rngR rngV : ℕ → ℕ) (out : Relation)
    (h : load_and_merge_data rngR rngV I = Except.ok out) :
    (∀ r ∈ out.rows, ∀ p ∈ r, p.2 ≠ Cell.na) ∧
    (∀ r ∈ out.rows, (∃ q : ℚ, r.lookup "total_co2_kg" = some (Cell.num q)) ∧
      (∃ q : ℚ, r.lookup "carbon_cost_per_value" = some (Cell.num q))) := by
  obtain ⟨Ir, _, m1, _, m2, _, m4, _, m5, _, hdm⟩ := pipeline_ok_inv h
  obtain ⟨R1, R2, _, _, _, hout⟩ := deriveMetrics_ok_inv hdm
  subst hout
  constructor
  · intro r hr p hp
    simp only [fillnaZero, List.mem_map] at hr
    obtain ⟨r4, _, he⟩ := hr
    subst he
    obtain ⟨p0, _, hpe⟩ := List.mem_map.mp hp
    rw [← hpe]
    exact fillCell_ne_na p0.2
  · intro r hr
    simp only [fillnaZero, List.mem_map] at hr
    obtain ⟨r4, hr4, he⟩ := hr
    subst he
    obtain ⟨cv, r3, hcv, hr3, he4⟩ := metricsR4_rows_mem hr4
    obtain ⟨tv, r2, htv, hr2, he3⟩ := metricsR3_rows_mem hr3
    constructor
    · obtain ⟨q, hq⟩ := fillCell_num_of_cases (mem_totalColumn_cases htv)
      refine ⟨q, ?_⟩
      rw [lookup_fillRow, he4, lookup_rowSet_other (by decide) cv, he3,
        lookup_rowSet_self]
      simp [hq]
    · obtain ⟨q, hq⟩ := mem_ccpvColumn_num hcv
      refine ⟨q, ?_⟩
      rw [lookup_fillRow, he4, lookup_rowSet_self]
      simp [hq, fillCell]

/-- C2 witness: a concrete successful run (with a missing distance value
present in the routes input, exercising the imputation path) on which the
density and finiteness facts evaluate. -/
theorem C2_dense_and_finite_witness :
    load_and_merge_data rng0 rng0 baseInputs = Except.ok (theOut rng0 rng0 baseInputs) ∧
    (∀ r ∈ (theOut rng0 rng0 baseInputs).rows, ∀ p ∈ r, p.2 ≠ Cell.na) := by
  have h : load_and_merge_data rng0 rng0 baseInputs =
      Except.ok (theOut rng0 rng0 baseInputs) := by decide
  exact ⟨h, (C2_dense_and_finite baseInputs rng0 rng0 _ h).1⟩

/-! ### Index-aligned view of the derived columns -/

theorem getElem?_getColCells (R : Relation) (n : String) (i : ℕ) :
    (getColCells R n)[i]? = (R.rows[i]?).map (fun r => rowCell r n) := by
  unfold getColCells
  exact List.getElem?_map _ _ _

theorem getElem?_zipWith_some {α β γ : Type} {f : α → β → γ} {as : List α} {bs : List β}
    {i : ℕ} {c : γ} (h : (List.zipWith f as bs)[i]? = some c) :
    ∃ a b, as[i]? = some a ∧ bs[i]? = some b ∧ c = f a b := by
  rw [List.getElem?_zipWith] at h
  cases ha : as[i]? with
  | none => rw [ha] at h; simp at h
  | some a =>
    rw [ha] at h
    cases hb : bs[i]? with
    | none => rw [hb] at h; simp at h
    | some b =>
      rw [hb] at h
      simp only at h
      exact ⟨a, b, rfl, rfl, by injection h with h2; exact h2.symm⟩

theorem rowCell_fillRow_eq (r : Row) (n : String) :
    rowCell (r.map (fun p => (p.1, fillCell p.2))) n =
      ((r.lookup n).map fillCell).getD Cell.na := by
  unfold rowCell
  rw [lookup_fillRow]

/-- C5: whenever the pipeline succeeds, row by row the output satisfies:
`carbon_cost_per_value` is exactly 0 when `order_value_usd` is 0 (the
division-by-zero / infinity guard), and equals
`total_co2_kg / order_value_usd` when `order_value_usd` is nonzero; the
row is retained in both cases (the columns are total over all rows). -/
theorem C5_ccpv_division (I : Inputs) (rngR rngV : ℕ → ℕ) (out : Relation)
    (h : load_and_merge_data rngR rngV I = Except.ok out) :
    ∀ (i : ℕ) (vq : ℚ),
      (getColCells out "order_value_usd")[i]? = some (Cell.num vq) →
      ((vq = 0 → (getColCells out "carbon_cost_per_value")[i]? = some (Cell.num 0)) ∧
       (vq ≠ 0 → ∃ tq : ℚ,
         (getColCells out "total_co2_kg")[i]? = some (Cell.num tq) ∧
         (getColCells out "carbon_cost_per_value")[i]? = some (Cell.num (tq / vq)))) := by
  obtain ⟨Ir, _, m1, _, m2, _, m4, _, m5, _, hdm⟩ := pipeline_ok_inv h
  obtain ⟨R1, R2, _, _, _, hout⟩ := deriveMetrics_ok_inv hdm
  subst hout
  intro i vq hv
  rw [getElem?_getColCells] at hv
  have hrows : (fillnaZero (metricsR4 (metricsR3 R2))).rows[i]? =
      ((metricsR4 (metricsR3 R2)).rows[i]?).map
        (fun r => r.map (fun p => (p.1, fillCell p.2))) := by
    exact List.getElem?_map _ _ _
  rw [hrows] at hv
  cases h4 : (metricsR4 (metricsR3 R2)).rows[i]? with
  | none => rw [h4] at hv; simp at hv
  | some r4 =>
    rw [h4] at hv
    simp only [Option.map_some'] at hv
    injection hv with hv
    have h4z : (List.zipWith (fun v r => rowSet "carbon_cost_per_value" v r)
        (ccpvColumn (metricsR3 R2)) (metricsR3 R2).rows)[i]? = some r4 := h4
    obtain ⟨cv, r3, hcvi, hr3i, he4⟩ := getElem?_zipWith_some h4z
    have h3z : (List.zipWith (fun v r => rowSet "total_co2_kg" v r)
        (totalColumn R2) R2.rows)[i]? = some r3 := hr3i
    obtain ⟨tv, r2, htvi, hr2i, he3⟩ := getElem?_zipWith_some h3z
    -- the value cell seen by the division
    rw [rowCell_fillRow_eq, he4, lookup_rowSet_other (by decide) cv, he3,
      lookup_rowSet_other (by decide) tv] at hv
    -- the ccpv cell of the final row
    have hccpvOut : (getColCells (fillnaZero (metricsR4 (metricsR3 R2)))
        "carbon_cost_per_value")[i]? = some (fillCell cv) := by
      rw [getElem?_getColCells, hrows, h4]
      simp only [Option.map_some']
      rw [rowCell_fillRow_eq, he4, lookup_rowSet_self]
      rfl
    have htotOut : (getColCells (fillnaZero (metricsR4 (metricsR3 R2)))
        "total_co2_kg")[i]? = some (fillCell tv) := by
      rw [getElem?_getColCells, hrows, h4]
      simp only [Option.map_some']
      rw [rowCell_fillRow_eq, he4, lookup_rowSet_other (by decide) cv, he3,
        lookup_rowSet_self]
      rfl
    -- identify the cells fed into cellDiv at index i
    have hcv2 : ((List.zipWith cellDiv (getColCells (metricsR3 R2) "total_co2_kg")
        (getColCells (metricsR3 R2) "order_value_usd")).map fillCell)[i]? = some cv := hcvi
    rw [List.getElem?_map] at hcv2
    cases hw : (List.zipWith cellDiv (getColCells (metricsR3 R2) "total_co2_kg")
        (getColCells (metricsR3 R2) "order_value_usd"))[i]? with
    | none => rw [hw] at hcv2; simp at hcv2
    | some w0 =>
      rw [hw] at hcv2
      simp only [Option.map_some'] at hcv2
      injection hcv2 with hcv2
      obtain ⟨T, V, hT, hV, hw0e⟩ := getElem?_zipWith_some hw
      have hr3x : (metricsR3 R2).rows[i]? = some r3 := hr3i
      rw [getElem?_getColCells, hr3x] at hT hV
      simp only [Option.map_some'] at hT hV
      injection hT with hT
      injection hV with hV
      have hTtv : T = tv := by
        rw [← hT, he3, rowCell_rowSet_self]
      have hVr2 : V = rowCell r2 "order_value_usd" := by
        rw [← hV, he3, rowCell_rowSet_other (by decide)]
      -- relate the hypothesis cell to V
      cases hl : r2.lookup "order_value_usd" with
      | none =>
        rw [hl] at hv
        simp at hv
      | some w =>
        rw [hl] at hv
        simp only [Option.map_some', Option.getD_some] at hv
        have hVw : V = w := by
          rw [hVr2]
          unfold rowCell
          rw [hl]
          rfl
        -- case analysis on the value cell
        have hwcases : w = Cell.num vq ∨ (w = Cell.na ∧ vq = 0) := by
          cases w with
          | num q =>
            left
            have : fillCell (Cell.num q) = Cell.num q := rfl
            rw [this] at hv
            injection hv with hv2
            rw [hv2]
          | str s => exact absurd hv (by simp [fillCell])
          | na =>
            right
            have : fillCell Cell.na = Cell.num 0 := rfl
            rw [this] at hv
            injection hv with hv2
            exact ⟨rfl, hv2.symm⟩
        constructor
        · intro hvq0
          -- denominator is zero (or missing): cellDiv yields NaN or 0/0 path
          have hcvz : cv = Cell.num 0 := by
            rcases hwcases with hw1 | ⟨hw1, _⟩
            · subst hw1
              subst hvq0
              rw [← hcv2, hw0e, hTtv, hVw]
              cases tv <;> simp [cellDiv, fillCell]
            · subst hw1
              rw [← hcv2, hw0e, hTtv, hVw]
              cases tv <;> simp [cellDiv, fillCell]
          rw [hccpvOut, hcvz]
          rfl
        · intro hvq
          rcases hwcases with hw1 | ⟨hw1, hw2⟩
          · subst hw1
            cases tv with
            | num tq =>
              refine ⟨tq, ?_, ?_⟩
              · rw [htotOut]
                rfl
              · rw [hccpvOut, ← hcv2, hw0e, hTtv, hVw]
                have hstep : cellDiv (Cell.num tq) (Cell.num vq) = Cell.num (qdiv tq vq) := by
                  show (if vq = 0 then Cell.na else Cell.num (qdiv tq vq)) = _
                  rw [if_neg hvq]
                rw [hstep,
                  show fillCell (fillCell (Cell.num (qdiv tq vq))) = Cell.num (qdiv tq vq)
                    from rfl,
                  qdiv_eq]
            | str s =>
              have hmem : Cell.str s ∈ totalColumn R2 := List.getElem?_mem htvi
              rcases mem_totalColumn_cases hmem with hx | ⟨q, hx⟩ <;> simp at hx
            | na =>
              refine ⟨0, ?_, ?_⟩
              · rw [htotOut]
                rfl
              · rw [hccpvOut, ← hcv2, hw0e, hTtv, hVw]
                rw [show fillCell (fillCell (cellDiv Cell.na (Cell.num vq))) = Cell.num 0
                  from rfl, zero_div]
          · exact absurd hw2 hvq

/-- C5 witness: the division facts applied to a concrete successful run
at row 0, whose order value is the coerced 0 (no order-value column in
the base input), discharging the zero-value branch. -/
theorem C5_ccpv_division_witness :
    (getColCells (theOut rng0 rng0 baseInputs) "order_value_usd")[0]? =
      some (Cell.num 0) ∧
    (getColCells (theOut rng0 rng0 baseInputs) "carbon_cost_per_value")[0]? =
      some (Cell.num 0) := by
  have h : load_and_merge_data rng0 rng0 baseInputs =
      Except.ok (theOut rng0 rng0 baseInputs) := by decide
  have hv : (getColCells (theOut rng0 rng0 baseInputs) "order_value_usd")[0]? =
      some (Cell.num 0) := by decide
  exact ⟨hv, (C5_ccpv_division baseInputs rng0 rng0 _ h 0 0 hv).1 rfl⟩

/-! ### Link 4: deduplication before the cost join -/

theorem head?_take_one {α : Type} (l : List α) : (l.take 1).head? = l.head? := by
  cases l <;> rfl

/-- C6: when the cost relation contains duplicate order ids, Link 4 first
collapses it to one row per distinct id keeping the first occurrence in
source order (the matches of any key against the deduplicated relation
are the first-seen match of the original projection), and then
left-joins, so the output has exactly one row per left row, each carrying
the right-hand fragment built from the FIRST matching cost row. -/
theorem C6_link4_dedup (L cost m5 : Relation)
    (_hdup : ¬ (cost.rows.map (fun r => rowCell r "id")).Nodup)
    (hok : link4 L cost = Except.ok m5) :
    (∀ k : Cell, mergeMatches (link4Dedup cost) "id" k =
      (mergeMatches (link4Sel cost) "id" k).take 1) ∧
    m5.rows = L.rows.map (fun lr =>
      rowRename (mergeFL L (link4Dedup cost) "id" "_final" true) lr ++
      mergeRight L (link4Dedup cost) "id" "id" "_cost" true lr) ∧
    m5.rows.length = L.rows.length ∧
    (∀ lr : Row, mergeRight L (link4Dedup cost) "id" "id" "_cost" true lr =
      match (mergeMatches (link4Sel cost) "id" (rowCell lr "id")).head? with
      | some rr => mergeProcR (mergeFR L (link4Dedup cost) "id" "_cost" true) "id" true rr
      | none => mergePad L (link4Dedup cost) "id" "id" "_cost" true) := by
  have hm5 : m5 = mergeKey L (link4Dedup cost) "id" "_final" "_cost" := by
    unfold link4 at hok
    split at hok
    · simp at hok
    · split at hok
      · simp at hok
      · injection hok with h2
        exact h2.symm
  have hnod : ((link4Dedup cost).rows.map (fun r => rowCell r "id")).Nodup :=
    nodup_dedupFirst (link4Sel cost) "id"
  refine ⟨fun k => mergeMatches_dedupFirst (link4Sel cost) "id" k, ?_, ?_, ?_⟩
  · rw [hm5]
    exact mergeAux_rows_eq hnod
  · rw [hm5]
    exact mergeAux_length hnod
  · intro lr
    unfold mergeRight link4Dedup
    rw [mergeMatches_dedupFirst, head?_take_one]

/-- A cost relation with a duplicated order id (two rows for id 1). -/
def costDup : Relation :=
  { cols := ["id", "fuel_labor_maintenance_costs_inr"],
    rows := [[("id", Cell.num 1), ("fuel_labor_maintenance_costs_inr", Cell.num 50)],
             [("id", Cell.num 1), ("fuel_labor_maintenance_costs_inr", Cell.num 60)],
             [("id", Cell.num 2), ("fuel_labor_maintenance_costs_inr", Cell.num 70)]] }

/-- The Link 4 output on the duplicate-cost example. -/
def link4Out0 : Relation :=
  (link4 relOrders1 costDup).toOption.getD { cols := [], rows := [] }

/-- C6 witness: Link 4 evaluated on a concrete cost relation with
duplicate ids, discharging the duplicate and success hypotheses. -/
theorem C6_link4_dedup_witness :
    link4 relOrders1 costDup = Except.ok link4Out0 ∧
    link4Out0.rows.length = relOrders1.rows.length := by
  have hok : link4 relOrders1 costDup = Except.ok link4Out0 := by decide
  exact ⟨hok, (C6_link4_dedup relOrders1 costDup link4Out0 (by decide) hok).2.2.1⟩

/-! ### Stage and link inversion lemmas -/

theorem standardize_fst_true_id_mem {R : Relation}
    (h : (standardize_order_id R).1 = true) : "id" ∈ (standardize_order_id R).2.cols := by
  unfold standardize_order_id at h ⊢
  split at h
  next n hf =>
    have hn : n ∈ R.cols := contains_true_mem (List.find?_some hf)
    show "id" ∈ (renameCol n "id" R).cols
    exact List.mem_map.mpr ⟨n, hn, by rw [if_pos rfl]⟩
  next hf =>
    by_cases hc : R.cols.contains "id" = true
    · show "id" ∈ (if R.cols.contains "id" = true then (true, R) else (false, R)).2.cols
      rw [if_pos hc]
      exact contains_true_mem hc
    · rw [if_neg hc] at h
      simp at h

theorem stageResolveIds_ok_inv {I : Inputs} {Ir : Inputs}
    (h : stageResolveIds I = Except.ok Ir) :
    (standardize_order_id I.orders).1 = true ∧
    (standardize_order_id I.cost).1 = true ∧
    (standardize_order_id I.performance).1 = true ∧
    Ir.orders = (standardize_order_id I.orders).2 ∧
    Ir.cost = (standardize_order_id I.cost).2 ∧
    Ir.performance = (standardize_order_id I.performance).2 ∧
    Ir.routes = I.routes ∧ Ir.fleet = I.fleet := by
  unfold stageResolveIds at h
  dsimp only [] at h
  split at h
  · simp at h
  next h1 =>
    split at h
    · simp at h
    next h2 =>
      split at h
      · simp at h
      next h3 =>
        injection h with h4
        subst h4
        refine ⟨by simpa using h1, by simpa using h2, by simpa using h3,
          rfl, rfl, rfl, rfl, rfl⟩

theorem rows_length_assignFrom (keys : List Cell) (rng : ℕ → ℕ) (n : ℕ) :
    (assignFrom keys rng n).length = n := by
  simp [assignFrom]

theorem rows_length_stageOrderValue (R : Relation) :
    (stageOrderValue R).rows.length = R.rows.length := by
  unfold stageOrderValue
  split
  · exact rows_length_setCol (by simp)
  · rw [rows_length_setCol (by simp [rows_length_setCol]), rows_length_setCol (by simp)]

theorem getColCells_stageOrderValue_other {n : String} (h1 : n ≠ "order_value_usd")
    (h2 : n ≠ "order_value_cleaned") (R : Relation) :
    getColCells (stageOrderValue R) n = getColCells R n := by
  unfold stageOrderValue
  split
  · exact getColCells_setCol_other (Ne.symm (fun he => h1 he.symm)) (by simp)
  · rw [getColCells_setCol_other (Ne.symm (fun he => h1 he.symm)) (by simp [rows_length_setCol]),
      getColCells_setCol_other (Ne.symm (fun he => h2 he.symm)) (by simp)]

theorem mem_cols_stageOrderValue_of_mem {m : String} {R : Relation} (h : m ∈ R.cols) :
    m ∈ (stageOrderValue R).cols := by
  unfold stageOrderValue
  split
  · exact mem_cols_setCol_of_mem h _
  · exact mem_cols_setCol_of_mem (mem_cols_setCol_of_mem h _) _

theorem not_mem_cols_standardize {m : String} {R : Relation} (hm : m ≠ "id")
    (h : m ∉ R.cols) : m ∉ (standardize_order_id R).2.cols := by
  unfold standardize_order_id
  cases hf : possible_id_names.find? (fun n => R.cols.contains n) with
  | some n =>
    intro hc
    rcases mem_cols_of_mem_renameCol hc with hc | hc
    · exact hm hc
    · exact h hc
  | none =>
    by_cases hc : R.cols.contains "id" = true
    · rw [if_pos hc]
      exact h
    · rw [if_neg hc]
      exact h

theorem not_mem_cols_stageCostCol {m : String} {R : Relation}
    (hm : m ≠ "fuel_labor_maintenance_costs_inr") (h : m ∉ R.cols) :
    m ∉ (stageCostCol R).cols := by
  unfold stageCostCol
  split
  · intro hc
    rcases mem_cols_of_mem_renameCol hc with hc | hc
    · exact hm hc
    · exact h hc
  · split
    · exact h
    · split
      · exact h
      · intro hc
        rcases mem_cols_of_mem_renameCol hc with hc | hc
        · exact hm hc
        · exact h hc

theorem link1_ok_inv {o p m1 : Relation} (h : link1 o p = Except.ok m1) :
    "id" ∈ o.cols ∧ "id" ∈ p.cols ∧ m1 = mergeKey o p "id" "_x" "_y" := by
  unfold link1 at h
  split at h
  next hc =>
    simp only [Bool.and_eq_true] at hc
    exact ⟨contains_true_mem hc.1, contains_true_mem hc.2, by injection h with h2; exact h2.symm⟩
  · simp at h

theorem link2Route_ok_inv {rngR : ℕ → ℕ} {m1 routes m1b : Relation}
    (h : link2Route rngR m1 routes = Except.ok m1b) :
    "route_id" ∈ m1b.cols ∧ m1b.rows.length = m1.rows.length ∧
    (m1b = m1 ∨ m1b = setCol "route_id"
      (assignFrom (uniqueCells (getColCells routes "route_id")) rngR m1.rows.length) m1) := by
  unfold link2Route at h
  split at h
  next hc =>
    injection h with h2
    subst h2
    exact ⟨contains_true_mem hc, rfl, Or.inl rfl⟩
  · split at h
    · simp at h
    · split at h
      · simp at h
      · injection h with h2
        subst h2
        exact ⟨mem_cols_setCol_self _ _ _,
          rows_length_setCol (rows_length_assignFrom _ _ _), Or.inr rfl⟩

theorem link2_ok_inv {rngR : ℕ → ℕ} {m1 routes m2 : Relation}
    (h : link2 rngR m1 routes = Except.ok m2) :
    ∃ m1b : Relation,
      link2Route rngR m1 routes = Except.ok m1b ∧
      "route_id" ∈ (routesPrepared routes).cols ∧
      m2 = renameCol "distance_km_route" "distance_km"
        (mergeKey m1b (routesPrepared routes) "route_id" "_order" "_route") := by
  unfold link2 at h
  split at h
  · simp at h
  next m1b hb =>
    split at h
    · simp at h
    next hc =>
      have hc2 : (routesPrepared routes).cols.contains "route_id" = true := by
        revert hc
        cases (routesPrepared routes).cols.contains "route_id" <;> simp
      refine ⟨m1b, hb, contains_true_mem hc2,
        by injection h with h2; exact h2.symm⟩

theorem link3_ok_inv {rngV : ℕ → ℕ} {m2 fleet m4 : Relation}
    (h : link3 rngV m2 fleet = Except.ok m4) :
    "vehicle_type" ∈ fleet.cols ∧
    m4 = mergeOn2 (setCol "assigned_vehicle_type"
        (assignFrom (uniqueCells (getColCells fleet "vehicle_type")) rngV m2.rows.length) m2)
      fleet "assigned_vehicle_type" "vehicle_type" "_merge" "_fleet" := by
  unfold link3 at h
  dsimp only [] at h
  split at h
  · simp at h
  next hc =>
    have hc2 : fleet.cols.contains "vehicle_type" = true := by
      revert hc
      cases fleet.cols.contains "vehicle_type" <;> simp
    split at h
    · simp at h
    · exact ⟨contains_true_mem hc2, by injection h with h2; exact h2.symm⟩

theorem link4_ok_inv {m4 cost m5 : Relation} (h : link4 m4 cost = Except.ok m5) :
    "id" ∈ cost.cols ∧ "id" ∈ m4.cols ∧
    m5 = mergeKey m4 (link4Dedup cost) "id" "_final" "_cost" := by
  unfold link4 at h
  split at h
  · simp at h
  next hc1 =>
    split at h
    · simp at h
    next hc2 =>
      have hc1b : cost.cols.contains "id" = true := by
        revert hc1
        cases cost.cols.contains "id" <;> simp
      have hc2b : m4.cols.contains "id" = true := by
        revert hc2
        cases m4.cols.contains "id" <;> simp
      exact ⟨contains_true_mem hc1b, contains_true_mem hc2b,
        by injection h with h2; exact h2.symm⟩

/-! ### Suffix freshness: no suffixed column can collide with the keys -/

theorem nosuf_id_x : ∀ m : String, m ++ "_x" ≠ "id" := append_ne_str (by decide)

theorem nosuf_id_y : ∀ m : String, m ++ "_y" ≠ "id" := append_ne_str (by decide)

theorem nosuf_id_order : ∀ m : String, m ++ "_order" ≠ "id" := append_ne_str (by decide)

theorem nosuf_id_route : ∀ m : String, m ++ "_route" ≠ "id" := append_ne_str (by decide)

theorem nosuf_id_merge : ∀ m : String, m ++ "_merge" ≠ "id" := append_ne_str (by decide)

theorem nosuf_id_fleet : ∀ m : String, m ++ "_fleet" ≠ "id" := append_ne_str (by decide)

theorem nosuf_id_final : ∀ m : String, m ++ "_final" ≠ "id" := append_ne_str (by decide)

theorem nosuf_id_cost : ∀ m : String, m ++ "_cost" ≠ "id" := append_ne_str (by decide)

theorem nosuf_rid_merge : ∀ m : String, m ++ "_merge" ≠ "route_id" := append_ne_str (by decide)

theorem nosuf_rid_fleet : ∀ m : String, m ++ "_fleet" ≠ "route_id" := append_ne_str (by decide)

theorem nosuf_rid_final : ∀ m : String, m ++ "_final" ≠ "route_id" := append_ne_str (by decide)

theorem nosuf_rid_cost : ∀ m : String, m ++ "_cost" ≠ "route_id" := append_ne_str (by decide)

theorem id_not_mem_routesPrepared (routes : Relation) :
    "id" ∉ (routesPrepared routes).cols := by
  unfold routesPrepared
  split
  · exact not_mem_cols_dropCol "id" routes
  next hc =>
    intro h
    exact hc (mem_contains_true h)

/-! ### Column membership through the pipeline stages -/

theorem mem_cols_renameCol_of_ne {m old new : String} {R : Relation}
    (hm : m ≠ old) (h : m ∈ R.cols) : m ∈ (renameCol old new R).cols := by
  unfold renameCol
  exact List.mem_map.mpr ⟨m, h, by simp [hm]⟩

theorem mem_cols_of_mem_link4Dedup {m : String} {C : Relation}
    (h : m ∈ (link4Dedup C).cols) : m = "id" ∨ m ∈ C.cols := by
  unfold link4Dedup dedupFirst link4Sel selectCols at h
  simp only [List.mem_cons, List.mem_filter] at h
  rcases h with h | h
  · exact Or.inl h
  · exact Or.inr h.1

theorem not_mem_cols_stageRouteFix {m : String} {R : Relation}
    (hm : m ≠ "route_id") (h : m ∉ R.cols) : m ∉ (stageRouteFix R).cols := by
  unfold stageRouteFix
  split
  · intro hc
    rcases mem_cols_of_mem_renameCol hc with hc | hc
    · exact hm hc
    · exact h hc
  · exact h

theorem mem_cols_of_mem_routesPrepared {m : String} {R : Relation}
    (h : m ∈ (routesPrepared R).cols) : m ∈ R.cols := by
  unfold routesPrepared at h
  split at h
  · unfold dropCol at h
    exact (List.mem_filter.mp h).1
  · exact h

theorem order_value_mem_stageOrderValue (R : Relation) :
    "order_value_usd" ∈ (stageOrderValue R).cols := by
  unfold stageOrderValue
  split
  · exact mem_cols_setCol_self _ _ _
  · exact mem_cols_setCol_self _ _ _

theorem mem_cols_mergeKey_left {L R : Relation} {key sufL sufR n : String}
    (h : n ∈ L.cols) (hnR : n ∉ R.cols ∨ n = key) :
    n ∈ (mergeKey L R key sufL sufR).cols := by
  apply mem_cols_mergeAux_left h
  intro hov
  rcases mem_mergeOv_iff.mp hov with ⟨_, h2, h3⟩
  rcases hnR with hnR | hnR
  · exact hnR h2
  · exact h3 (by simp [mergeExcl, hnR])

theorem mem_cols_mergeOn2_left {L R : Relation} {lkey rkey sufL sufR n : String}
    (h : n ∈ L.cols) (hnR : n ∉ R.cols) :
    n ∈ (mergeOn2 L R lkey rkey sufL sufR).cols := by
  apply mem_cols_mergeAux_left h
  intro hov
  exact hnR (mem_mergeOv_iff.mp hov).2.1

theorem mem_cols_deriveMetrics {m : String} {m5 out : Relation}
    (h : deriveMetrics m5 = Except.ok out) (hm : m ∈ m5.cols) : m ∈ out.cols := by
  obtain ⟨R1, R2, h1, h2, _, hout⟩ := deriveMetrics_ok_inv h
  obtain ⟨_, hR1⟩ := fillMeanCol_ok_inv h1
  obtain ⟨_, hR2⟩ := fillMeanCol_ok_inv h2
  subst hout hR1 hR2
  rw [cols_fillnaZero]
  unfold metricsR4 metricsR3
  exact mem_cols_setCol_of_mem (mem_cols_setCol_of_mem
    (mem_cols_setCol_of_mem (mem_cols_setCol_of_mem hm _) _) _) _

theorem metric_cols_mem_deriveMetrics {m5 out : Relation}
    (h : deriveMetrics m5 = Except.ok out) :
    "total_co2_kg" ∈ out.cols ∧ "carbon_cost_per_value" ∈ out.cols := by
  obtain ⟨R1, R2, h1, h2, _, hout⟩ := deriveMetrics_ok_inv h
  subst hout
  rw [cols_fillnaZero]
  unfold metricsR4 metricsR3
  exact ⟨mem_cols_setCol_of_mem (mem_cols_setCol_self _ _ _) _,
    mem_cols_setCol_self _ _ _⟩

/-! ### Row-level value provenance through the pipeline -/

theorem rowCell_renameCol_row {old new m : String} (h1 : m ≠ old) (h2 : m ≠ new) (r : Row) :
    rowCell (r.map (fun p => (if p.1 = old then new else p.1, p.2))) m = rowCell r m := by
  unfold rowCell
  induction r with
  | nil => rfl
  | cons p tr ih =>
    obtain ⟨k, w⟩ := p
    rw [List.map_cons]
    by_cases hk : k = old
    · have hbn : (m == new) = false := by simp [h2]
      have hbo : (m == old) = false := by simp [h1]
      rw [hk, if_pos rfl, List.lookup_cons, List.lookup_cons, hbn, hbo]
      exact ih
    · simp only [if_neg hk]
      rw [List.lookup_cons, List.lookup_cons]
      cases hb : (m == k)
      · exact ih
      · rfl

theorem mem_rows_setCol {n : String} {vals : List Cell} {R : Relation} {row : Row}
    (h : row ∈ (setCol n vals R).rows) :
    ∃ v r, r ∈ R.rows ∧ row = rowSet n v r := by
  unfold setCol at h
  obtain ⟨v, r, hv, hr, hc⟩ := mem_zipWith h
  exact ⟨v, r, hr, hc⟩

theorem mem_rows_renameCol {old new : String} {R : Relation} {row : Row}
    (h : row ∈ (renameCol old new R).rows) :
    ∃ r ∈ R.rows, row = r.map (fun p => (if p.1 = old then new else p.1, p.2)) := by
  unfold renameCol at h
  obtain ⟨r, hr, he⟩ := List.mem_map.mp h
  exact ⟨r, hr, he.symm⟩

theorem mem_rows_fillnaZero {R : Relation} {row : Row}
    (h : row ∈ (fillnaZero R).rows) :
    ∃ r ∈ R.rows, row = r.map (fun p => (p.1, fillCell p.2)) := by
  unfold fillnaZero at h
  obtain ⟨r, hr, he⟩ := List.mem_map.mp h
  exact ⟨r, hr, he.symm⟩

theorem rowCell_fillRow_of_mem {r : Row} {n : String} (h : n ∈ r.map Prod.fst) :
    rowCell (r.map (fun p => (p.1, fillCell p.2))) n = fillCell (rowCell r n) := by
  obtain ⟨v, hv⟩ := Option.isSome_iff_exists.mp (lookup_isSome_iff_mem.mpr h)
  rw [rowCell_fillRow_eq]
  unfold rowCell
  rw [hv]
  rfl

theorem rowCell_mem_mergeAux {L R : Relation} {lkey rkey sufL sufR : String}
    {dropRight : Bool} {n : String} {row : Row}
    (hWF : WFRel R)
    (hf : ∀ m, mergeFL L R lkey sufL dropRight m = n ↔ m = n)
    (hnr : n ∉ mergeRCols L R lkey rkey sufR dropRight)
    (h : row ∈ (mergeAux L R lkey rkey sufL sufR dropRight).rows) :
    ∃ lr ∈ L.rows, rowCell row n = rowCell lr n := by
  obtain ⟨lr, hlr, t, hrow, ht⟩ := mergeAux_mem_rows hWF h
  subst hrow
  exact ⟨lr, hlr, rowCell_append_of_fsts hf ht hnr⟩

theorem key_not_mem_mergeRCols {L R : Relation} {key sufR : String}
    (hsuf : ∀ x : String, x ++ sufR ≠ key) :
    key ∉ mergeRCols L R key key sufR true := by
  intro h
  unfold mergeRCols mergeFR mergeKeptR at h
  have h2 := (mem_map_sufRename_iff hsuf).mp h
  have h3 : key ∈ R.cols.filter (fun c => c ≠ key) := h2.1
  simp at h3

theorem not_mem_mergeRCols_drop {L R : Relation} {key sufR n : String}
    (hsuf : ∀ x : String, x ++ sufR ≠ n) (hnR : n ∉ R.cols) :
    n ∉ mergeRCols L R key key sufR true := by
  intro h
  unfold mergeRCols mergeFR mergeKeptR at h
  have h2 := (mem_map_sufRename_iff hsuf).mp h
  have h3 : n ∈ R.cols.filter (fun c => c ≠ key) := h2.1
  exact hnR (List.mem_filter.mp h3).1

theorem not_mem_mergeRCols_on2 {L R : Relation} {lkey rkey sufR n : String}
    (hsuf : ∀ x : String, x ++ sufR ≠ n) (hnR : n ∉ R.cols) :
    n ∉ mergeRCols L R lkey rkey sufR false := by
  intro h
  unfold mergeRCols mergeFR mergeKeptR at h
  have h2 := (mem_map_sufRename_iff hsuf).mp h
  have h3 : n ∈ R.cols := h2.1
  exact hnR h3

theorem not_mem_right_of_mem_mergeOn2 {L R : Relation} {lkey rkey sufL sufR n : String}
    (hsL : ∀ x : String, x ++ sufL ≠ n) (hsR : ∀ x : String, x ++ sufR ≠ n)
    (hL : n ∈ L.cols)
    (h : n ∈ (mergeOn2 L R lkey rkey sufL sufR).cols) : n ∉ R.cols := by
  intro hR
  have hov : n ∈ mergeOv L R (mergeExcl false lkey) :=
    mem_mergeOv_iff.mpr ⟨hL, hR, by simp [mergeExcl]⟩
  unfold mergeOn2 at h
  rcases mem_cols_of_mem_mergeAux hsL hsR h with ⟨_, h2⟩ | ⟨_, h2⟩ <;> exact h2 hov

theorem WF_link4Dedup (C : Relation) : WFRel (link4Dedup C) := by
  unfold link4Dedup link4Sel
  exact WF_dedupFirst "id" (WF_selectCols _ _)

/-- A fleet relation that also carries a `route_id` column. -/
def relFleetRid : Relation :=
  { cols := ["vehicle_type", "co2_emissions_kg_per_km", "route_id"],
    rows := [[("vehicle_type", Cell.str "T"), ("co2_emissions_kg_per_km", Cell.num 2),
      ("route_id", Cell.str "R1")]] }

/-- The base inputs with the fleet relation carrying `route_id`. -/
def inputsFleetRouteId : Inputs := { baseInputs with fleet := relFleetRid }

/-- C9 counterexample: when the fleet relation itself carries a
`route_id` column, the Link 3 collision renames both copies to
`route_id_merge` and `route_id_fleet`, so the pipeline succeeds but the
output has NO `route_id` column — the guaranteed columns are not
independent of which optional columns the sources carry. -/
theorem C9_counterexample :
    load_and_merge_data rng0 rng0 inputsFleetRouteId =
      Except.ok (theOut rng0 rng0 inputsFleetRouteId) ∧
    "route_id" ∉ (theOut rng0 rng0 inputsFleetRouteId).cols :=
  ⟨by decide, by decide⟩

/-- C9 amended: on every successful run the output contains the columns
`order_value_usd`, `route_id`, `assigned_vehicle_type`, `total_co2_kg`
and `carbon_cost_per_value`, PROVIDED the optional source columns do not
collide with the created names: the normalized performance, routes,
fleet and cost relations must not carry `order_value_usd`, and the
normalized fleet and cost relations must not carry `route_id` or
`assigned_vehicle_type` (otherwise the merge suffixes rename the created
column away, as the counterexample shows).  `total_co2_kg` and
`carbon_cost_per_value` are set after the last merge and are present
unconditionally. -/
theorem C9_output_columns_amended {rngR rngV : ℕ → ℕ} {I : Inputs} {out : Relation}
    (hok : load_and_merge_data rngR rngV I = Except.ok out)
    (hp : "order_value_usd" ∉ (clean_and_standardize_columns I.performance).cols)
    (hr : "order_value_usd" ∉ (clean_and_standardize_columns I.routes).cols)
    (hf1 : "order_value_usd" ∉ (clean_and_standardize_columns I.fleet).cols)
    (hf2 : "route_id" ∉ (clean_and_standardize_columns I.fleet).cols)
    (hf3 : "assigned_vehicle_type" ∉ (clean_and_standardize_columns I.fleet).cols)
    (hc1 : "order_value_usd" ∉ (clean_and_standardize_columns I.cost).cols)
    (hc2 : "route_id" ∉ (clean_and_standardize_columns I.cost).cols)
    (hc3 : "assigned_vehicle_type" ∉ (clean_and_standardize_columns I.cost).cols) :
    "order_value_usd" ∈ out.cols ∧ "route_id" ∈ out.cols ∧
    "assigned_vehicle_type" ∈ out.cols ∧ "total_co2_kg" ∈ out.cols ∧
    "carbon_cost_per_value" ∈ out.cols := by
  obtain ⟨Ir, hIr, m1, h1, m2, h2, m4, h4, m5, h5, hdm⟩ := pipeline_ok_inv hok
  obtain ⟨_, _, _, hOrd, hCost, hPerf, hRoutes, hFleet⟩ := stageResolveIds_ok_inv hIr
  dsimp only [stageNormalize] at hOrd hCost hPerf hRoutes hFleet
  obtain ⟨_, _, hm1⟩ := link1_ok_inv h1
  obtain ⟨m1b, hb, _, hm2⟩ := link2_ok_inv h2
  obtain ⟨hm1brid, _, hbcases⟩ := link2Route_ok_inv hb
  obtain ⟨_, hm4⟩ := link3_ok_inv h4
  obtain ⟨_, _, hm5⟩ := link4_ok_inv h5
  have hpc : "order_value_usd" ∉ Ir.performance.cols := by
    rw [hPerf]
    exact not_mem_cols_standardize (by decide) hp
  have hrv : "order_value_usd" ∉ (routesPrepared (stageRouteFix Ir.routes)).cols := by
    intro hc
    have hc2b := mem_cols_of_mem_routesPrepared hc
    rw [hRoutes] at hc2b
    exact not_mem_cols_stageRouteFix (by decide) hr hc2b
  have hfv1 : "order_value_usd" ∉ Ir.fleet.cols := by rw [hFleet]; exact hf1
  have hfv2 : "route_id" ∉ Ir.fleet.cols := by rw [hFleet]; exact hf2
  have hfv3 : "assigned_vehicle_type" ∉ Ir.fleet.cols := by rw [hFleet]; exact hf3
  have hCost1 : "order_value_usd" ∉ (stageCostCol Ir.cost).cols := by
    rw [hCost]
    exact not_mem_cols_stageCostCol (by decide) (not_mem_cols_standardize (by decide) hc1)
  have hCost2 : "route_id" ∉ (stageCostCol Ir.cost).cols := by
    rw [hCost]
    exact not_mem_cols_stageCostCol (by decide) (not_mem_cols_standardize (by decide) hc2)
  have hCost3 : "assigned_vehicle_type" ∉ (stageCostCol Ir.cost).cols := by
    rw [hCost]
    exact not_mem_cols_stageCostCol (by decide) (not_mem_cols_standardize (by decide) hc3)
  have hD1 : "order_value_usd" ∉ (link4Dedup (stageCostCol Ir.cost)).cols := by
    intro hc
    rcases mem_cols_of_mem_link4Dedup hc with he | hc2b
    · exact absurd he (by decide)
    · exact hCost1 hc2b
  have hD2 : "route_id" ∉ (link4Dedup (stageCostCol Ir.cost)).cols := by
    intro hc
    rcases mem_cols_of_mem_link4Dedup hc with he | hc2b
    · exact absurd he (by decide)
    · exact hCost2 hc2b
  have hD3 : "assigned_vehicle_type" ∉ (link4Dedup (stageCostCol Ir.cost)).cols := by
    intro hc
    rcases mem_cols_of_mem_link4Dedup hc with he | hc2b
    · exact absurd he (by decide)
    · exact hCost3 hc2b
  have hov1 : "order_value_usd" ∈ m1.cols := by
    rw [hm1]
    exact mem_cols_mergeKey_left (order_value_mem_stageOrderValue _) (Or.inl hpc)
  have hov1b : "order_value_usd" ∈ m1b.cols := by
    rcases hbcases with he | he <;> rw [he]
    · exact hov1
    · exact mem_cols_setCol_of_mem hov1 _
  have hov2 : "order_value_usd" ∈ m2.cols := by
    rw [hm2]
    exact mem_cols_renameCol_of_ne (by decide)
      (mem_cols_mergeKey_left hov1b (Or.inl hrv))
  have hov4 : "order_value_usd" ∈ m4.cols := by
    rw [hm4]
    exact mem_cols_mergeOn2_left (mem_cols_setCol_of_mem hov2 _) hfv1
  have hov5 : "order_value_usd" ∈ m5.cols := by
    rw [hm5]
    exact mem_cols_mergeKey_left hov4 (Or.inl hD1)
  have hrid2 : "route_id" ∈ m2.cols := by
    rw [hm2]
    exact mem_cols_renameCol_of_ne (by decide)
      (mem_cols_mergeKey_left hm1brid (Or.inr rfl))
  have hrid4 : "route_id" ∈ m4.cols := by
    rw [hm4]
    exact mem_cols_mergeOn2_left (mem_cols_setCol_of_mem hrid2 _) hfv2
  have hrid5 : "route_id" ∈ m5.cols := by
    rw [hm5]
    exact mem_cols_mergeKey_left hrid4 (Or.inl hD2)
  have havt4 : "assigned_vehicle_type" ∈ m4.cols := by
    rw [hm4]
    exact mem_cols_mergeOn2_left (mem_cols_setCol_self _ _ _) hfv3
  have havt5 : "assigned_vehicle_type" ∈ m5.cols := by
    rw [hm5]
    exact mem_cols_mergeKey_left havt4 (Or.inl hD3)
  obtain ⟨ht, hv⟩ := metric_cols_mem_deriveMetrics hdm
  exact ⟨mem_cols_deriveMetrics hdm hov5, mem_cols_deriveMetrics hdm hrid5,
    mem_cols_deriveMetrics hdm havt5, ht, hv⟩

/-- C9 witness: the amended column guarantee evaluated on the base
inputs, whose optional columns collide with none of the created names. -/
theorem C9_output_columns_amended_witness :
    "order_value_usd" ∈ (theOut rng0 rng0 baseInputs).cols ∧
    "route_id" ∈ (theOut rng0 rng0 baseInputs).cols ∧
    "assigned_vehicle_type" ∈ (theOut rng0 rng0 baseInputs).cols ∧
    "total_co2_kg" ∈ (theOut rng0 rng0 baseInputs).cols ∧
    "carbon_cost_per_value" ∈ (theOut rng0 rng0 baseInputs).cols :=
  @C9_output_columns_amended rng0 rng0 baseInputs (theOut rng0 rng0 baseInputs)
    (by decide) (by decide) (by decide) (by decide) (by decide) (by decide)
    (by decide) (by decide) (by decide)

/-! ### C10: provenance of the `id` column through the joins -/

/-- Merges `on=` a key preserve well-formedness. -/
theorem WF_mergeKey {L R : Relation} {key sufL sufR : String}
    (hL : WFRel L) (hR : WFRel R) : WFRel (mergeKey L R key sufL sufR) :=
  WF_mergeAux hL hR

/-- Merges with `left_on`/`right_on` keys preserve well-formedness. -/
theorem WF_mergeOn2 {L R : Relation} {lkey rkey sufL sufR : String}
    (hL : WFRel L) (hR : WFRel R) : WFRel (mergeOn2 L R lkey rkey sufL sufR) :=
  WF_mergeAux hL hR

/-- An orders relation whose single id is missing (NaN). -/
def relOrdersNa : Relation :=
  { cols := ["id"], rows := [[("id", Cell.na)]] }

/-- The base inputs with the NaN-id orders relation. -/
def inputsOrdersNaId : Inputs := { baseInputs with orders := relOrdersNa }

/-- The relation produced by Link 1 on given inputs (orders resolved,
order value coerced, performance left-joined on `id`). -/
def theM1 (I : Inputs) : Relation :=
  (link1 (stageOrderValue (standardize_order_id (clean_and_standardize_columns I.orders)).2)
    (standardize_order_id (clean_and_standardize_columns I.performance)).2).toOption.getD
    { cols := [], rows := [] }

/-- C10 counterexample: with an orders relation whose id is missing, the
pipeline succeeds, the relation after Link 1 carries a NaN id, but the
final output carries 0 there — the final `fillna(0)` overwrites the id,
so the output id does NOT always equal the id carried after Link 1. -/
theorem C10_counterexample :
    load_and_merge_data rng0 rng0 inputsOrdersNaId =
      Except.ok (theOut rng0 rng0 inputsOrdersNaId) ∧
    link1 (stageOrderValue (standardize_order_id
        (clean_and_standardize_columns inputsOrdersNaId.orders)).2)
      (standardize_order_id (clean_and_standardize_columns inputsOrdersNaId.performance)).2 =
        Except.ok (theM1 inputsOrdersNaId) ∧
    getColCells (theM1 inputsOrdersNaId) "id" = [Cell.na] ∧
    getColCells (theOut rng0 rng0 inputsOrdersNaId) "id" = [Cell.num 0] :=
  ⟨by decide, by decide, by decide, by decide⟩

/-- C10 amended: a routes `id` column is indeed dropped before Link 2,
and on every successful run over well-formed inputs no later join
suffixes or overwrites the accumulating `id` column; but the final
`fillna(0)` does rewrite a missing id, so each output row's id equals
the NaN-to-zero image (`fillCell`) of the id it carried after Link 1,
not always that id itself. -/
theorem C10_id_provenance_amended {rngR rngV : ℕ → ℕ} {I : Inputs} {out m1 : Relation}
    (hok : load_and_merge_data rngR rngV I = Except.ok out)
    (hlk1 : link1 (stageOrderValue (standardize_order_id
        (clean_and_standardize_columns I.orders)).2)
      (standardize_order_id (clean_and_standardize_columns I.performance)).2 =
        Except.ok m1)
    (hWFo : WFRel I.orders) (hWFp : WFRel I.performance)
    (hWFr : WFRel I.routes) (hWFf : WFRel I.fleet) :
    "id" ∉ (routesPrepared (stageRouteFix (clean_and_standardize_columns I.routes))).cols ∧
    "id" ∈ out.cols ∧
    ∀ row ∈ out.rows, ∃ r1 ∈ m1.rows, rowCell row "id" = fillCell (rowCell r1 "id") := by
  obtain ⟨Ir, hIr, m1p, h1, m2, h2, m4, h4, m5, h5, hdm⟩ := pipeline_ok_inv hok
  obtain ⟨hstd1, _, _, hOrd, hCost, hPerf, hRoutes, hFleet⟩ := stageResolveIds_ok_inv hIr
  dsimp only [stageNormalize] at hstd1 hOrd hCost hPerf hRoutes hFleet
  rw [hOrd, hPerf] at h1
  injection hlk1.symm.trans h1 with hm1p
  subst hm1p
  obtain ⟨_, _, hm1e⟩ := link1_ok_inv h1
  obtain ⟨m1b, hb, _, hm2e⟩ := link2_ok_inv h2
  obtain ⟨_, _, hbcases⟩ := link2Route_ok_inv hb
  obtain ⟨_, hm4e⟩ := link3_ok_inv h4
  obtain ⟨_, hm4id, hm5e⟩ := link4_ok_inv h5
  obtain ⟨R1, R2, hfm1, hfm2, _, hout⟩ := deriveMetrics_ok_inv hdm
  obtain ⟨_, hR1e⟩ := fillMeanCol_ok_inv hfm1
  obtain ⟨_, hR2e⟩ := fillMeanCol_ok_inv hfm2
  have hWFm1 : WFRel m1 := by
    rw [hm1e]
    exact WF_mergeKey (WF_stageOrderValue (WF_standardize (WF_clean hWFo)))
      (WF_standardize (WF_clean hWFp))
  have hWFIrR : WFRel Ir.routes := by rw [hRoutes]; exact WF_clean hWFr
  have hWFRP : WFRel (routesPrepared (stageRouteFix Ir.routes)) :=
    WF_routesPrepared (WF_stageRouteFix hWFIrR)
  have hWFm1b : WFRel m1b := by
    rcases hbcases with he | he <;> rw [he]
    · exact hWFm1
    · exact WF_setCol _ _ hWFm1
  have hWFm2 : WFRel m2 := by
    rw [hm2e]
    exact WF_renameCol _ _ (WF_mergeKey hWFm1b hWFRP)
  have hWFIrF : WFRel Ir.fleet := by rw [hFleet]; exact WF_clean hWFf
  have hWFm4 : WFRel m4 := by
    rw [hm4e]
    exact WF_mergeOn2 (WF_setCol _ _ hWFm2) hWFIrF
  have hWFm5 : WFRel m5 := by
    rw [hm5e]
    exact WF_mergeKey hWFm4 (WF_link4Dedup _)
  have hWFR2 : WFRel R2 := by
    rw [hR2e, hR1e]
    exact WF_setCol _ _ (WF_setCol _ _ hWFm5)
  have hWFR4 : WFRel (metricsR4 (metricsR3 R2)) := by
    unfold metricsR4 metricsR3
    exact WF_setCol _ _ (WF_setCol _ _ hWFR2)
  have hid5 : "id" ∈ m5.cols := by
    rw [hm5e]
    exact mem_cols_mergeKey_left hm4id (Or.inr rfl)
  have hidR2 : "id" ∈ R2.cols := by
    rw [hR2e, hR1e]
    exact mem_cols_setCol_of_mem (mem_cols_setCol_of_mem hid5 _) _
  have hidR4 : "id" ∈ (metricsR4 (metricsR3 R2)).cols := by
    unfold metricsR4 metricsR3
    exact mem_cols_setCol_of_mem (mem_cols_setCol_of_mem hidR2 _) _
  have hidout : "id" ∈ out.cols := by
    rw [hout, cols_fillnaZero]
    exact hidR4
  have hidm1 : "id" ∈ m1.cols := by
    rw [hm1e]
    exact mem_cols_mergeKey_left
      (mem_cols_stageOrderValue_of_mem (standardize_fst_true_id_mem hstd1)) (Or.inr rfl)
  have hidm1b : "id" ∈ m1b.cols := by
    rcases hbcases with he | he <;> rw [he]
    · exact hidm1
    · exact mem_cols_setCol_of_mem hidm1 _
  have hidm2 : "id" ∈ m2.cols := by
    rw [hm2e]
    exact mem_cols_renameCol_of_ne (by decide)
      (mem_cols_mergeKey_left hidm1b (Or.inl (id_not_mem_routesPrepared _)))
  have hidF : "id" ∉ Ir.fleet.cols := by
    apply not_mem_right_of_mem_mergeOn2 nosuf_id_merge nosuf_id_fleet
      (mem_cols_setCol_of_mem hidm2 _)
    rw [hm4e] at hm4id
    exact hm4id
  refine ⟨id_not_mem_routesPrepared _, hidout, ?_⟩
  intro row hrow
  rw [hout] at hrow
  obtain ⟨r4, hr4, hre⟩ := mem_rows_fillnaZero hrow
  subst hre
  have hfill : rowCell (r4.map (fun p => (p.1, fillCell p.2))) "id" =
      fillCell (rowCell r4 "id") :=
    rowCell_fillRow_of_mem (by rw [hWFR4 r4 hr4]; exact hidR4)
  unfold metricsR4 at hr4
  obtain ⟨v4, r3, hr3, he4⟩ := mem_rows_setCol hr4
  unfold metricsR3 at hr3
  obtain ⟨v3, r2, hr2, he3⟩ := mem_rows_setCol hr3
  rw [hR2e] at hr2
  obtain ⟨v2, rB, hrB, he2⟩ := mem_rows_setCol hr2
  rw [hR1e] at hrB
  obtain ⟨v1, rm5, hrm5, he1⟩ := mem_rows_setCol hrB
  have hv4 : rowCell r4 "id" = rowCell r3 "id" := by
    rw [he4]; exact rowCell_rowSet_other (by decide) _ _
  have hv3 : rowCell r3 "id" = rowCell r2 "id" := by
    rw [he3]; exact rowCell_rowSet_other (by decide) _ _
  have hv2 : rowCell r2 "id" = rowCell rB "id" := by
    rw [he2]; exact rowCell_rowSet_other (by decide) _ _
  have hv1 : rowCell rB "id" = rowCell rm5 "id" := by
    rw [he1]; exact rowCell_rowSet_other (by decide) _ _
  rw [hm5e] at hrm5
  unfold mergeKey at hrm5
  obtain ⟨rm4, hrm4, hv5⟩ := rowCell_mem_mergeAux (WF_link4Dedup _)
    (sufRename_hf nosuf_id_final
      (key_not_mem_mergeOv m4 (link4Dedup (stageCostCol Ir.cost)) "id"))
    (key_not_mem_mergeRCols nosuf_id_cost) hrm5
  rw [hm4e] at hrm4
  unfold mergeOn2 at hrm4
  obtain ⟨rm3, hrm3, hv6⟩ := rowCell_mem_mergeAux hWFIrF
    (sufRename_hf nosuf_id_merge (fun hc => hidF (mem_mergeOv_iff.mp hc).2.1))
    (not_mem_mergeRCols_on2 nosuf_id_fleet hidF) hrm4
  obtain ⟨va, rm2, hrm2, hea⟩ := mem_rows_setCol hrm3
  have hv7 : rowCell rm3 "id" = rowCell rm2 "id" := by
    rw [hea]; exact rowCell_rowSet_other (by decide) _ _
  rw [hm2e] at hrm2
  obtain ⟨rM, hrM, heM⟩ := mem_rows_renameCol hrm2
  have hv8 : rowCell rm2 "id" = rowCell rM "id" := by
    rw [heM]; exact rowCell_renameCol_row (by decide) (by decide) _
  unfold mergeKey at hrM
  obtain ⟨r1b, hr1b, hv9⟩ := rowCell_mem_mergeAux hWFRP
    (sufRename_hf nosuf_id_order
      (fun hc => id_not_mem_routesPrepared _ (mem_mergeOv_iff.mp hc).2.1))
    (not_mem_mergeRCols_drop nosuf_id_route (id_not_mem_routesPrepared _)) hrM
  have hfin : ∃ rr1 ∈ m1.rows, rowCell r1b "id" = rowCell rr1 "id" := by
    rcases hbcases with he | he
    · rw [he] at hr1b
      exact ⟨r1b, hr1b, rfl⟩
    · rw [he] at hr1b
      obtain ⟨vv, rr1, hrr1, hee⟩ := mem_rows_setCol hr1b
      exact ⟨rr1, hrr1, by rw [hee]; exact rowCell_rowSet_other (by decide) _ _⟩
  obtain ⟨rr1, hrr1, hv10⟩ := hfin
  refine ⟨rr1, hrr1, ?_⟩
  rw [hfill, hv4, hv3, hv2, hv1, hv5, hv6, hv7, hv8, hv9, hv10]

/-- C10 witness: the amended provenance contract evaluated on the base
inputs: the single output row carries the NaN-to-zero image of the id it
carried after Link 1. -/
theorem C10_id_provenance_amended_witness :
    "id" ∈ (theOut rng0 rng0 baseInputs).cols ∧
    rowCell ((theOut rng0 rng0 baseInputs).rows.headD []) "id" =
      fillCell (rowCell ((theM1 baseInputs).rows.headD []) "id") := by
  have h := @C10_id_provenance_amended rng0 rng0 baseInputs
    (theOut rng0 rng0 baseInputs) (theM1 baseInputs) (by decide) (by decide)
    (by decide) (by decide) (by decide) (by decide)
  refine ⟨h.2.1, ?_⟩
  obtain ⟨r1, hr1, he⟩ := h.2.2 ((theOut rng0 rng0 baseInputs).rows.headD []) (by decide)
  have hr1e : r1 = (theM1 baseInputs).rows.headD [] := by
    have hsing : (theM1 baseInputs).rows = [(theM1 baseInputs).rows.headD []] := by decide
    rw [hsing] at hr1
    simpa using hr1
  rw [← hr1e]
  exact he

/-! ### C1: row count and id column of the full pipeline -/

theorem length_getColCells (R : Relation) (n : String) :
    (getColCells R n).length = R.rows.length := by
  simp [getColCells]

theorem length_imputedColumn (name : String) (R : Relation) :
    (imputedColumn name R).length = R.rows.length := by
  simp [imputedColumn, length_getColCells]

theorem length_totalColumn (R : Relation) :
    (totalColumn R).length = R.rows.length := by
  simp [totalColumn, List.length_zipWith, length_getColCells]

theorem length_ccpvColumn (R : Relation) :
    (ccpvColumn R).length = R.rows.length := by
  simp [ccpvColumn, List.length_zipWith, length_getColCells]

theorem rows_length_clean (R : Relation) :
    (clean_and_standardize_columns R).rows.length = R.rows.length := by
  simp [clean_and_standardize_columns]

theorem rows_length_standardize (R : Relation) :
    (standardize_order_id R).2.rows.length = R.rows.length := by
  unfold standardize_order_id
  split
  · exact rows_length_renameCol _ _ _
  · split <;> rfl

theorem nodup_link4Dedup (C : Relation) :
    ((link4Dedup C).rows.map (fun r => rowCell r "id")).Nodup := by
  unfold link4Dedup
  exact nodup_dedupFirst _ _

theorem getColCells_fillnaZero_of_WF {R : Relation} {n : String} (hWF : WFRel R)
    (hn : n ∈ R.cols) :
    getColCells (fillnaZero R) n = (getColCells R n).map fillCell := by
  unfold getColCells fillnaZero
  simp only [List.map_map]
  apply List.map_congr_left
  intro r hr
  simp only [Function.comp]
  exact rowCell_fillRow_of_mem (by rw [hWF r hr]; exact hn)

/-- A performance relation with two rows for the same order id. -/
def relPerfDup : Relation :=
  { cols := ["id", "otd"],
    rows := [[("id", Cell.num 1), ("otd", Cell.num 7)],
             [("id", Cell.num 1), ("otd", Cell.num 8)]] }

/-- The base inputs with the duplicated-id performance relation. -/
def inputsPerfDup : Inputs := { baseInputs with performance := relPerfDup }

/-- C1 counterexample: the orders relation has unique ids and the
pipeline succeeds, yet the output has 2 rows for 1 order row: the Link 1
left join emits one row per matching performance row, and the
performance relation carries a duplicated id.  Unique orders ids alone
do not give one output row per order. -/
theorem C1_counterexample :
    (getColCells inputsPerfDup.orders "id").Nodup ∧
    load_and_merge_data rng0 rng0 inputsPerfDup =
      Except.ok (theOut rng0 rng0 inputsPerfDup) ∧
    (theOut rng0 rng0 inputsPerfDup).rows.length = 2 ∧
    inputsPerfDup.orders.rows.length = 1 :=
  ⟨by decide, by decide, by decide, by decide⟩

/-- C1 amended: over well-formed inputs, when every RIGHT side of the
four left joins has pairwise-distinct key cells — the resolved
performance ids, the prepared routes `route_id`s and the normalized
fleet `vehicle_type`s contain no duplicate, where as in pandas merge two
missing (NaN) keys count as equal, so at most one missing key is allowed
per side (the cost side is deduplicated by the pipeline itself) — the
output row count equals the orders row count, and the output id column
is exactly the resolved orders id column (with NaN ids rewritten to 0 by
the final `fillna`).  Uniqueness of the orders ids alone does not
suffice, as the counterexample shows. -/
theorem C1_row_count_amended {rngR rngV : ℕ → ℕ} {I : Inputs} {out : Relation}
    (hok : load_and_merge_data rngR rngV I = Except.ok out)
    (_hOrdU : (getColCells
      (standardize_order_id (clean_and_standardize_columns I.orders)).2 "id").Nodup)
    (hPerfU : (getColCells
      (standardize_order_id (clean_and_standardize_columns I.performance)).2 "id").Nodup)
    (hRouteU : (getColCells
      (routesPrepared (stageRouteFix (clean_and_standardize_columns I.routes))) "route_id").Nodup)
    (hFleetU : (getColCells (clean_and_standardize_columns I.fleet) "vehicle_type").Nodup)
    (hWFo : WFRel I.orders) (hWFp : WFRel I.performance)
    (hWFr : WFRel I.routes) (hWFf : WFRel I.fleet) :
    out.rows.length = I.orders.rows.length ∧
    getColCells out "id" =
      (getColCells (standardize_order_id (clean_and_standardize_columns I.orders)).2 "id").map
        fillCell := by
  obtain ⟨Ir, hIr, m1, h1, m2, h2, m4, h4, m5, h5, hdm⟩ := pipeline_ok_inv hok
  obtain ⟨hstd1, _, _, hOrd, hCost, hPerf, hRoutes, hFleet⟩ := stageResolveIds_ok_inv hIr
  dsimp only [stageNormalize] at hstd1 hOrd hCost hPerf hRoutes hFleet
  rw [hOrd, hPerf] at h1
  obtain ⟨_, _, hm1e⟩ := link1_ok_inv h1
  obtain ⟨m1b, hb, _, hm2e⟩ := link2_ok_inv h2
  obtain ⟨_, hblen, hbcases⟩ := link2Route_ok_inv hb
  obtain ⟨_, hm4e⟩ := link3_ok_inv h4
  obtain ⟨_, hm4id, hm5e⟩ := link4_ok_inv h5
  obtain ⟨R1, R2, hfm1, hfm2, _, hout⟩ := deriveMetrics_ok_inv hdm
  obtain ⟨_, hR1e⟩ := fillMeanCol_ok_inv hfm1
  obtain ⟨_, hR2e⟩ := fillMeanCol_ok_inv hfm2
  have hPerfU2 : ((standardize_order_id
      (clean_and_standardize_columns I.performance)).2.rows.map
        (fun r => rowCell r "id")).Nodup :=
    hPerfU
  have hRouteU2 : ((routesPrepared (stageRouteFix Ir.routes)).rows.map
      (fun r => rowCell r "route_id")).Nodup := by
    rw [hRoutes]
    exact hRouteU
  have hFleetU2 : (Ir.fleet.rows.map (fun r => rowCell r "vehicle_type")).Nodup := by
    rw [hFleet]
    exact hFleetU
  have hWFIrR : WFRel Ir.routes := by rw [hRoutes]; exact WF_clean hWFr
  have hWFRP : WFRel (routesPrepared (stageRouteFix Ir.routes)) :=
    WF_routesPrepared (WF_stageRouteFix hWFIrR)
  have hWFIrF : WFRel Ir.fleet := by rw [hFleet]; exact WF_clean hWFf
  have hWFm1 : WFRel m1 := by
    rw [hm1e]
    exact WF_mergeKey (WF_stageOrderValue (WF_standardize (WF_clean hWFo)))
      (WF_standardize (WF_clean hWFp))
  have hWFm1b : WFRel m1b := by
    rcases hbcases with he | he <;> rw [he]
    · exact hWFm1
    · exact WF_setCol _ _ hWFm1
  have hWFm2 : WFRel m2 := by
    rw [hm2e]
    exact WF_renameCol _ _ (WF_mergeKey hWFm1b hWFRP)
  have hWFm4 : WFRel m4 := by
    rw [hm4e]
    exact WF_mergeOn2 (WF_setCol _ _ hWFm2) hWFIrF
  have hWFm5 : WFRel m5 := by
    rw [hm5e]
    exact WF_mergeKey hWFm4 (WF_link4Dedup _)
  have hWFR2 : WFRel R2 := by
    rw [hR2e, hR1e]
    exact WF_setCol _ _ (WF_setCol _ _ hWFm5)
  have hWFR4 : WFRel (metricsR4 (metricsR3 R2)) := by
    unfold metricsR4 metricsR3
    exact WF_setCol _ _ (WF_setCol _ _ hWFR2)
  have hid5 : "id" ∈ m5.cols := by
    rw [hm5e]
    exact mem_cols_mergeKey_left hm4id (Or.inr rfl)
  have hidR2 : "id" ∈ R2.cols := by
    rw [hR2e, hR1e]
    exact mem_cols_setCol_of_mem (mem_cols_setCol_of_mem hid5 _) _
  have hidR4 : "id" ∈ (metricsR4 (metricsR3 R2)).cols := by
    unfold metricsR4 metricsR3
    exact mem_cols_setCol_of_mem (mem_cols_setCol_of_mem hidR2 _) _
  have hidm1 : "id" ∈ m1.cols := by
    rw [hm1e]
    exact mem_cols_mergeKey_left
      (mem_cols_stageOrderValue_of_mem (standardize_fst_true_id_mem hstd1)) (Or.inr rfl)
  have hidm1b : "id" ∈ m1b.cols := by
    rcases hbcases with he | he <;> rw [he]
    · exact hidm1
    · exact mem_cols_setCol_of_mem hidm1 _
  have hidm2 : "id" ∈ m2.cols := by
    rw [hm2e]
    exact mem_cols_renameCol_of_ne (by decide)
      (mem_cols_mergeKey_left hidm1b (Or.inl (id_not_mem_routesPrepared _)))
  have hidF : "id" ∉ Ir.fleet.cols := by
    apply not_mem_right_of_mem_mergeOn2 nosuf_id_merge nosuf_id_fleet
      (mem_cols_setCol_of_mem hidm2 _)
    rw [hm4e] at hm4id
    exact hm4id
  have hlen5 : m5.rows.length = m4.rows.length := by
    rw [hm5e]
    unfold mergeKey
    exact mergeAux_length (nodup_link4Dedup _)
  have hlen4 : m4.rows.length = m2.rows.length := by
    rw [hm4e]
    unfold mergeOn2
    rw [mergeAux_length hFleetU2]
    exact rows_length_setCol (rows_length_assignFrom _ _ _)
  have hlen2 : m2.rows.length = m1.rows.length := by
    rw [hm2e, rows_length_renameCol]
    unfold mergeKey
    rw [mergeAux_length hRouteU2]
    exact hblen
  have hlen1 : m1.rows.length = I.orders.rows.length := by
    rw [hm1e]
    unfold mergeKey
    rw [mergeAux_length hPerfU2, rows_length_stageOrderValue, rows_length_standardize,
      rows_length_clean]
  have hlenR2 : R2.rows.length = m5.rows.length := by
    rw [hR2e, rows_length_setCol (length_imputedColumn _ _), hR1e,
      rows_length_setCol (length_imputedColumn _ _)]
  have hlenout : out.rows.length = R2.rows.length := by
    rw [hout, rows_length_fillnaZero]
    unfold metricsR4 metricsR3
    rw [rows_length_setCol (length_ccpvColumn _), rows_length_setCol (length_totalColumn _)]
  have hg5 : getColCells m5 "id" = getColCells m4 "id" := by
    rw [hm5e]
    unfold mergeKey
    exact getColCells_mergeAux_left (nodup_link4Dedup _) (WF_link4Dedup _)
      (sufRename_hf nosuf_id_final (key_not_mem_mergeOv _ _ _))
      (key_not_mem_mergeRCols nosuf_id_cost)
  have hg4 : getColCells m4 "id" = getColCells m2 "id" := by
    rw [hm4e]
    unfold mergeOn2
    rw [getColCells_mergeAux_left hFleetU2 hWFIrF
      (sufRename_hf nosuf_id_merge (fun hc => hidF (mem_mergeOv_iff.mp hc).2.1))
      (not_mem_mergeRCols_on2 nosuf_id_fleet hidF)]
    exact getColCells_setCol_other (by decide) (rows_length_assignFrom _ _ _)
  have hg2 : getColCells m2 "id" = getColCells m1b "id" := by
    rw [hm2e, getColCells_renameCol_other (by decide) (by decide)]
    unfold mergeKey
    exact getColCells_mergeAux_left hRouteU2 hWFRP
      (sufRename_hf nosuf_id_order
        (fun hc => id_not_mem_routesPrepared _ (mem_mergeOv_iff.mp hc).2.1))
      (not_mem_mergeRCols_drop nosuf_id_route (id_not_mem_routesPrepared _))
  have hg1b : getColCells m1b "id" = getColCells m1 "id" := by
    rcases hbcases with he | he <;> rw [he]
    exact getColCells_setCol_other (by decide) (rows_length_assignFrom _ _ _)
  have hg1 : getColCells m1 "id" =
      getColCells (standardize_order_id (clean_and_standardize_columns I.orders)).2 "id" := by
    rw [hm1e]
    unfold mergeKey
    rw [getColCells_mergeAux_left hPerfU2 (WF_standardize (WF_clean hWFp))
      (sufRename_hf nosuf_id_x (key_not_mem_mergeOv _ _ _))
      (key_not_mem_mergeRCols nosuf_id_y)]
    exact getColCells_stageOrderValue_other (by decide) (by decide) _
  have hgR2 : getColCells R2 "id" = getColCells m5 "id" := by
    rw [hR2e, getColCells_setCol_other (by decide) (length_imputedColumn _ _), hR1e,
      getColCells_setCol_other (by decide) (length_imputedColumn _ _)]
  have hgout : getColCells out "id" = (getColCells R2 "id").map fillCell := by
    rw [hout, getColCells_fillnaZero_of_WF hWFR4 hidR4]
    unfold metricsR4 metricsR3
    rw [getColCells_setCol_other (by decide) (length_ccpvColumn _),
      getColCells_setCol_other (by decide) (length_totalColumn _)]
  constructor
  · omega
  · rw [hgout, hgR2, hg5, hg4, hg2, hg1b, hg1]

/-- C1 witness: the amended row-count and id-column contract evaluated
on the base inputs. -/
theorem C1_row_count_amended_witness :
    (theOut rng0 rng0 baseInputs).rows.length = baseInputs.orders.rows.length ∧
    getColCells (theOut rng0 rng0 baseInputs) "id" =
      (getColCells (standardize_order_id
        (clean_and_standardize_columns baseInputs.orders)).2 "id").map fillCell :=
  @C1_row_count_amended rng0 rng0 baseInputs (theOut rng0 rng0 baseInputs)
    (by decide) (by decide) (by decide) (by decide) (by decide)
    (by decide) (by decide) (by decide) (by decide)

end GreenRoute
